import Mathlib

/-!
Shallow embedding of `enyo.Collection` (the ordered, lazily-materialized record
collection of the repository) and verification of its specified properties.

Modelling conventions:
* A slot of the underlying `records` array is `Option Entry`: `none` models a
  stored falsy value (e.g. a `null` inserted as part of a batch), `some e` a
  raw data hash or a materialized record.
* `Entry.id` models JavaScript reference identity (`===` between objects);
  `Entry.isRec` models `r instanceof this.model`; `Entry.attrs` is the
  attribute bag, with `Option Int` values where `none` plays `undefined`.
* Observer/listener dispatch is modelled by an explicit event list; the
  `silenced` flag suppresses emission exactly as `notifyObservers` and
  `triggerEvent` do in the source.
-/

namespace Enyo

/-- Attribute bag of a record or raw hash; `lookup` yields `none` for an
absent key, playing the role of JavaScript `undefined`. -/
abbrev Attrs := List (String × Int)

/-- One object held by a slot: a raw data hash (`isRec = false`) or a
materialized record instance (`isRec = true`).  `id` stands for reference
identity. -/
structure Entry where
  id : Nat
  attrs : Attrs
  isRec : Bool
  destroyed : Bool
deriving Repr, DecidableEq

/-- A slot of the `records` array; `none` models a stored falsy value. -/
abbrev Slot := Option Entry

/-- Notifications and events dispatched through the store. -/
inductive Event where
  | lengthChg (oldLen newLen : Nat)
  | addE (idxs : List Nat)
  | removeE (recs : List (Nat × Entry))
  | resetE (recs : List Slot)
  | filterE
  | destroyE
  | recDestroyed (id : Nat)
deriving Repr, DecidableEq

/-- Fetch dispatch strategy (`"add"` or `"merge"`). -/
inductive Strategy where
  | addS
  | mergeS
deriving Repr, DecidableEq

/-- Modelled from the spec: `enyo.asyncMethod` (not in src/) schedules a task
to run after the current synchronous block; a scheduled-but-not-yet-run
request is recorded as a pending `Sched` value carrying the effective
dispatch strategy of its success continuation (defaulted to `"add"`). -/
inductive Sched where
  | fetchRecord (strategy : Strategy)
deriving Repr, DecidableEq

/-- The collection state: the slot sequence plus the cached `length`, the
filter-overlay bookkeeping (`filtered`, `filtering`, `_uRecords`), the
notification-silencing flag, configuration read from the model kind
(`primaryKey`, `mergeKeys`, `instanceAllRecords`) and the bulk-destroy flag.
`nextId` feeds fresh identities to the record factory. -/
structure Collection where
  records : List Slot
  length : Nat
  filtered : Bool
  filtering : Bool
  silenced : Bool
  uRecords : Option (List Slot)
  instanceAllRecords : Bool
  primaryKey : String
  mergeKeys : Option (List String)
  nextId : Nat
  destroyAllFlag : Bool
deriving Repr, DecidableEq

/-- `notifyObservers` / `triggerEvent`: emission is suppressed while
`silenced` is set. -/
def emit (c : Collection) (e : Event) : List Event :=
  if c.silenced then [] else [e]

/-- `enyo.indexOf(rec, this.records)`: first index whose slot is `===` the
given object, as an `Option Nat` (`none` for `-1`). -/
def idxOf (r : Entry) : List Slot → Option Nat
  | [] => none
  | s :: rest =>
    match s with
    | some e => if e.id == r.id then some 0 else (idxOf r rest).map (· + 1)
    | none => (idxOf r rest).map (· + 1)

/-- `reset(records?)`.  `none` models a call with no argument (or any falsy
argument); `some arr` a call with an array.  When filtered and called with no
argument it swaps the undo buffer back in and nulls the buffer (the source
performs a dead store to `_uRecords` first; the net effect is `null`).  A
`null` undo buffer would be installed as the new `records` by the source; that
unreachable situation is modelled as the empty sequence. -/
def reset (c : Collection) (arg : Option (List Slot)) : Collection × List Event :=
  match arg with
  | none =>
    if c.filtered then
      let rr := c.uRecords.getD []
      let l := c.records.length
      let c' := { c with uRecords := none, records := rr,
                         length := rr.length, filtered := false }
      (c', (if l ≠ rr.length then emit c (Event.lengthChg l rr.length) else [])
             ++ emit c (Event.resetE rr))
    else (c, [])
  | some arr =>
    let c1 := if c.filtering && !c.filtered then { c with uRecords := some c.records } else c
    let l := c1.records.length
    let c2 := { c1 with records := arr, length := arr.length }
    (c2, (if l ≠ arr.length then emit c (Event.lengthChg l arr.length) else [])
           ++ emit c (Event.resetE arr))

/-- The index normalization of `add`:
`i = (i !== null && !isNaN(i) && (i=Math.max(0,i)) && (i=Math.min(len,i))) || len`.
Note that a zero intermediate value is falsy and therefore falls through to
`len`. -/
def clampIdx (idx : Option Int) (len : Nat) : Nat :=
  match idx with
  | none => len
  | some i =>
    let a : Int := max 0 i
    if a = 0 then len
    else
      let b : Int := min (len : Int) a
      if b = 0 then len else b.toNat

/-- Modelled from the spec: `store.createRecord(modelType, attrs, props)`
(the Store factory, which is not part of src/) returns a freshly instantiated
record carrying the given attributes; the collection owns it and attaches its
`change`/`destroy` listeners.  Here it yields a materialized entry with a
fresh identity. -/
def createRecordEntry (nid : Nat) (a : Attrs) : Entry :=
  { id := nid, attrs := a, isRec := true, destroyed := false }

/-- The instantiation/validation scan of `add`: walks the batch while entries
are truthy (stopping at the first `none`), replaces raw hashes by instances
when `instanceAllRecords` is set, throws on a raw hash already marked
destroyed otherwise, and collects `j + i` for every entry that was not
already a record instance.  Returns the (possibly updated) batch, the index
list and the next fresh identity. -/
def scanBatch (eager : Bool) (i : Nat) :
    List Slot → Nat → Nat → Except String (List Slot × List Nat × Nat)
  | [], _, nid => .ok ([], [], nid)
  | none :: rest, _, nid => .ok (none :: rest, [], nid)
  | some e :: rest, j, nid =>
    if e.isRec then
      match scanBatch eager i rest (j + 1) nid with
      | .error s => .error s
      | .ok (rest', idxs, nid') => .ok (some e :: rest', idxs, nid')
    else if eager then
      match scanBatch eager i rest (j + 1) (nid + 1) with
      | .error s => .error s
      | .ok (rest', idxs, nid') =>
        .ok (some (createRecordEntry nid e.attrs) :: rest', (j + i) :: idxs, nid')
    else if e.destroyed then
      .error "enyo.Collection.add: cannot add a record that has already been destroyed"
    else
      match scanBatch eager i rest (j + 1) nid with
      | .error s => .error s
      | .ok (rest', idxs, nid') => .ok (some e :: rest', (j + i) :: idxs, nid')

/-- `add(records, i?)`.  Resets first when filtered, clamps the index against
the cached `length`, returns early on an empty batch, scans the batch (which
may throw; the error value carries the state and events at the throw point),
splices the whole batch in at once, recomputes `length`, notifies a length
change iff the value changed, and fires one `add` event iff the index list is
non-empty.  Returns the index list. -/
def add (c0 : Collection) (batch : List Slot) (idx : Option Int) :
    Except (String × Collection × List Event) (List Nat × Collection × List Event) :=
  let p := if c0.filtered then reset c0 none else (c0, [])
  let c := p.1
  let es0 := p.2
  let len := c.length
  let i := clampIdx idx len
  if batch.length = 0 then .ok ([], c, es0)
  else
    match scanBatch c.instanceAllRecords i batch 0 c.nextId with
    | .error s => .error (s, c, es0)
    | .ok (batch', idxs, nid) =>
      let recs := c.records.take i ++ batch' ++ c.records.drop i
      let c' := { c with records := recs, length := recs.length, nextId := nid }
      let es := es0 ++ (if len ≠ c'.length then emit c' (Event.lengthChg len c'.length) else [])
                    ++ (if idxs.length ≠ 0 then emit c' (Event.addE idxs) else [])
      .ok (idxs, c', es)

/-- `d[i] = r` on the returned hash of `remove`: overwrite the existing key or
append a new one. -/
def upsert (d : List (Nat × Entry)) (i : Nat) (r : Entry) : List (Nat × Entry) :=
  if d.any (fun p => p.1 == i) then
    d.map (fun p => if p.1 == i then (i, r) else p)
  else d ++ [(i, r)]

/-- The middle branch of the three-way placement in `remove`:
`k=0; while (rr[k] < i) ++k; rr.splice(k-1, 0, i);` — a splice at `-1`
counts from the end of the array. -/
def midInsert (rr : List Nat) (i : Nat) : List Nat :=
  let k := (rr.takeWhile (fun a => decide (a < i))).length
  let pos := if k = 0 then rr.length - 1 else k - 1
  List.insertIdx pos i rr

/-- First pass of `remove`: resolve each batch entry to its current index
(stopping at the first falsy batch entry), build the ordering array `rr` by
three-way placement (prepend when `i ≤ m`, append when `i ≥ x`, positional
splice otherwise) and the index-to-record hash `d`. -/
def rmPass1 (recs : List Slot) :
    List Slot → List Nat → List (Nat × Entry) → Nat → Nat →
    List Nat × List (Nat × Entry)
  | [], rr, d, _, _ => (rr, d)
  | none :: _, rr, d, _, _ => (rr, d)
  | some r :: rest, rr, d, m, x =>
    match idxOf r recs with
    | some i =>
      if i ≤ m then rmPass1 recs rest (i :: rr) (upsert d i r) i x
      else if i ≥ x then rmPass1 recs rest (rr ++ [i]) (upsert d i r) m i
      else rmPass1 recs rest (midInsert rr i) (upsert d i r) m x
    | none => rmPass1 recs rest rr d m x

/-- Second pass of `remove`: splice out the collected indices, iterating the
ordering array in reverse (the argument is already reversed); a splice at an
out-of-range index removes nothing, as in the source. -/
def eraseList (l : List Slot) : List Nat → List Slot
  | [] => l
  | i :: is => eraseList (l.eraseIdx i) is

/-- `remove(rec)`.  Resets first when filtered, runs the two passes,
recomputes `length`, notifies a length change iff the value changed, fires
one `remove` event carrying the index-to-record hash iff any index was
collected, and returns that hash. -/
def remove (c0 : Collection) (batch : List Slot) :
    List (Nat × Entry) × Collection × List Event :=
  let p := if c0.filtered then reset c0 none else (c0, [])
  let c := p.1
  let es0 := p.2
  let l := c.length
  let pr := rmPass1 c.records batch [] [] 0 0
  let rr := pr.1
  let d := pr.2
  let recs := eraseList c.records rr.reverse
  let c' := { c with records := recs, length := recs.length }
  let es := es0 ++ (if l ≠ c'.length then emit c' (Event.lengthChg l c'.length) else [])
                ++ (if rr.length ≠ 0 then emit c' (Event.removeE d) else [])
  (d, c', es)

/-- `removeAll()`: `remove` applied to the current records array. -/
def removeAll (c : Collection) : List (Nat × Entry) × Collection × List Event :=
  remove c c.records

/-- The merge-key comparison loop of `merge`: walks the `mergeKeys` while the
key is truthy, setting the match flag on each equal value and clearing it
(and breaking) on the first mismatch.  Crucially, the loop stores each
incoming value into the same variable `v` that the surrounding candidate loop
uses for the primary-key comparison, so the final value of `v` is returned
alongside the flag. -/
def mkLoop (rA cA : Attrs) : Bool → Option Int → List String → Bool × Option Int
  | mtch, v, [] => (mtch, v)
  | mtch, v, m :: rest =>
    if m = "" then (mtch, v)
    else
      let v' := rA.lookup m
      if v' == cA.lookup m then mkLoop rA cA true v' rest
      else (false, v')

/-- The candidate loop of `merge` for one incoming item: scan the pool of
still-unmatched local slots (stopping at the first falsy slot), matching on a
defined primary-key value first and on the merge keys otherwise, threading
the shared variable `v` through the merge-key loop.  Returns the position and
entry of the matched candidate, if any. -/
def candScan (pk : String) (mks : Option (List String)) (rA : Attrs) :
    Option Int → List Slot → Option (Nat × Entry)
  | _, [] => none
  | _, none :: _ => none
  | v, some cE :: rest =>
    if v.isSome && v == cE.attrs.lookup pk then some (0, cE)
    else
      match mks with
      | some mkl =>
        let q := mkLoop rA cE.attrs false v mkl
        if q.1 then some (0, cE)
        else
          match candScan pk mks rA q.2 rest with
          | some pr => some (pr.1 + 1, pr.2)
          | none => none
      | none =>
        match candScan pk mks rA v rest with
        | some pr => some (pr.1 + 1, pr.2)
        | none => none

/-- `setObject` / `enyo.mixin` on a matched slot: the incoming attributes
override the existing ones key by key (lookups see the incoming value first).
The raw-hash bookkeeping fields of the model are not part of the attribute
bag here. -/
def mixinAttrs (base incoming : Attrs) : Attrs :=
  incoming ++ base

/-- In the source the matched candidate is the very object stored in
`this.records`, so updating it through `setObject`/`mixin` updates the
collection in place; here the update is applied to every slot holding the
matched identity. -/
def updateById (recs : List Slot) (targetId : Nat) (a : Attrs) : List Slot :=
  recs.map (fun s => match s with
    | some e => if e.id == targetId then some { e with attrs := a } else some e
    | none => none)

/-- The main loop of `merge`: for each incoming item (stopping at the first
falsy one), skip items with no usable key, otherwise scan the pool; on a
match consume the pool slot and update the matched object, otherwise push the
item onto the to-add list.  Returns the updated records, the remaining pool
and the to-add list. -/
def mergeLoop (pk : String) (mks : Option (List String)) :
    List Slot → List Slot → List Slot → List Slot →
    List Slot × List Slot × List Slot
  | [], pool, recs, addAcc => (recs, pool, addAcc)
  | none :: _, pool, recs, addAcc => (recs, pool, addAcc)
  | some r :: rest, pool, recs, addAcc =>
    let v := r.attrs.lookup pk
    if mks.isSome || v.isSome then
      match candScan pk mks r.attrs v pool with
      | some pr =>
        let pool' := pool.eraseIdx pr.1
        let recs' := updateById recs pr.2.id (mixinAttrs pr.2.attrs r.attrs)
        mergeLoop pk mks rest pool' recs' addAcc
      | none => mergeLoop pk mks rest pool recs (addAcc ++ [some r])
    else mergeLoop pk mks rest pool recs (addAcc ++ [some r])

/-- `merge(records)`: runs the reconciliation loop against a working copy of
the current records, then appends the unmerged items in one `add` batch (which
may throw). -/
def merge (c : Collection) (batch : List Slot) :
    Except (String × Collection × List Event) (Collection × List Event) :=
  let q := mergeLoop c.primaryKey c.mergeKeys batch c.records c.records []
  let c1 := { c with records := q.1 }
  let addAcc := q.2.2
  if addAcc.length ≠ 0 then
    match add c1 addAcc none with
    | .error e => .error e
    | .ok r => .ok (r.2.1, r.2.2)
  else .ok (c1, [])

/-- `at(i)`: returns the record at the index, materializing a raw hash in
place through the record factory on first access (`createRecord(r, null,
false)` does not re-add the record), and an absent value for out-of-range
indices or stored falsy slots. -/
def atIdx (c : Collection) (i : Nat) : Option Entry × Collection :=
  match c.records[i]? with
  | none => (none, c)
  | some none => (none, c)
  | some (some e) =>
    if e.isRec then (some e, c)
    else
      let e' := createRecordEntry c.nextId e.attrs
      (some e', { c with records := c.records.set i (some e'), nextId := c.nextId + 1 })

/-- The loop of `map`: `for (i=0; i<l && (r=this.at(i)); ++i)`, with the
remaining iteration count `l - i` as fuel. -/
def mapAux {α : Type} (f : Entry → Nat → α) : Nat → Collection → Nat → List α × Collection
  | 0, c, _ => ([], c)
  | fuel + 1, c, i =>
    match atIdx c i with
    | (some r, c1) =>
      let q := mapAux f fuel c1 (i + 1)
      (f r i :: q.1, q.2)
    | (none, c1) => ([], c1)

/-- `map(fn)`: iterates via `at` up to the cached `length`, stopping at the
first absent or falsy resolution. -/
def mapRecs {α : Type} (c : Collection) (f : Entry → Nat → α) : List α × Collection :=
  mapAux f c.length c 0

/-- The loop of `filter`: same traversal as `map`, keeping the records for
which the predicate returns true. -/
def filterAux (f : Entry → Nat → Bool) : Nat → Collection → Nat → List Entry × Collection
  | 0, c, _ => ([], c)
  | fuel + 1, c, i =>
    match atIdx c i with
    | (some r, c1) =>
      let q := filterAux f fuel c1 (i + 1)
      ((if f r i then [r] else []) ++ q.1, q.2)
    | (none, c1) => ([], c1)

/-- `filter(fn)`: iterates via `at` up to the cached `length`, stopping at the
first absent or falsy resolution. -/
def filterRecs (c : Collection) (f : Entry → Nat → Bool) : List Entry × Collection :=
  filterAux f c.length c 0

/-- Insertion step for the numeric-ascending enumeration order of
`for (k in rr)` over the returned hash of `removeAll`. -/
def insertSorted (p : Nat × Entry) : List (Nat × Entry) → List (Nat × Entry)
  | [] => [p]
  | q :: rest => if p.1 ≤ q.1 then p :: q :: rest else q :: insertSorted p rest

/-- JavaScript `for (k in d)` enumerates the integer-like keys of the hash in
ascending numeric order. -/
def sortByKey (d : List (Nat × Entry)) : List (Nat × Entry) :=
  d.foldr insertSorted []

/-- Modelled from the spec: `Record.destroy()` (the Model kind is not part of
src/) marks the record destroyed and emits its `destroy` event, which reaches
the collection through its `_recordDestroyed` listener; that handler removes
the record again unless the bulk-destroy flag is set. -/
def destroyRecord (c : Collection) (e : Entry) : Collection × List Event :=
  let es := [Event.recDestroyed e.id]
  if !c.destroyAllFlag then
    let q := remove c [some { e with destroyed := true }]
    (q.2.1, es ++ q.2.2)
  else (c, es)

/-- The destruction loop of `destroyAll` over the enumerated hash; calling
`destroy()` on a slot that was still a raw hash is a type error in the
source, surfaced as an `Except` error here. -/
def destroyEach (c : Collection) : List (Nat × Entry) → Except String (Collection × List Event)
  | [] => .ok (c, [])
  | p :: rest =>
    if p.2.isRec then
      let q := destroyRecord c p.2
      match destroyEach q.1 rest with
      | .error s => .error s
      | .ok r => .ok (r.1, q.2 ++ r.2)
    else .error "TypeError: r.destroy is not a function"

/-- `destroyAll()`: removes everything, then destroys each removed record
with the bulk-destroy flag set so that the destroy-triggered re-entrant
removal is suppressed. -/
def destroyAll (c0 : Collection) :
    Except String (List (Nat × Entry) × Collection × List Event) :=
  let q := removeAll c0
  let c1 := { q.2.1 with destroyAllFlag := true }
  match destroyEach c1 (sortByKey q.1) with
  | .error s => .error s
  | .ok r => .ok (q.1, { r.1 with destroyAllFlag := false }, q.2.2 ++ r.2)

/-- The options of `fetch` that matter to the orchestration contract. -/
structure FetchOpts where
  replace : Bool
  destroy : Bool
  strategy : Option Strategy
deriving Repr, DecidableEq

/-- `fetch(opts)`: resets when filtered, schedules the store request through
`enyo.asyncMethod` (recorded as a pending task — it has not run when `fetch`
returns), then synchronously clears the sequence according to the
`replace`/`destroy` options. -/
def fetch (c0 : Collection) (o : FetchOpts) :
    Except String (Collection × List Event × List Sched) :=
  let p := if c0.filtered then reset c0 none else (c0, [])
  let tasks := [Sched.fetchRecord (o.strategy.getD Strategy.addS)]
  if o.replace && !o.destroy then
    let q := removeAll p.1
    .ok (q.2.1, p.2 ++ q.2.2, tasks)
  else if o.destroy then
    match destroyAll p.1 with
    | .error s => .error s
    | .ok r => .ok (r.2.1, p.2 ++ r.2.2, tasks)
  else .ok (p.1, p.2, tasks)

/-- The documented behaviors of a named filter predicate: return a falsy
value (no-op), return the replacement array, or call `reset(array)` itself
while notifications are silenced and return `true` as a completion signal. -/
inductive FilterAction where
  | falsy
  | arr (l : List Slot)
  | selfReset (l : List Slot)
deriving Repr, DecidableEq

/-- Runs the predicate bound to the collection; the result component encodes
the returned value: `none` for falsy, `some none` for `true`, `some (some l)`
for an array. -/
def runPredicate (c : Collection) (p : FilterAction) :
    Collection × List Event × Option (Option (List Slot)) :=
  match p with
  | .falsy => (c, [], none)
  | .arr l => (c, [], some (some l))
  | .selfReset l =>
    let q := reset c (some l)
    (q.1, q.2, some none)

/-- `_filterContent()` for one `filter` event, with the predicate to invoke
(`none` when the active filter names no method on the collection).  Mirrors
the re-entrancy guard, the silencing window around the predicate call, the
interpretation of the return value (`true` means the predicate already reset;
an array is passed to `reset`), and the final `filtered` update from the
undo-buffer contents. -/
def filterContent (c0 : Collection) (p : Option FilterAction) : Collection × List Event :=
  if ¬c0.filtering ∧ (c0.length ≠ 0 ∨ (c0.uRecords.getD []).length ≠ 0) then
    match p with
    | none => (c0, [])
    | some act =>
      let c1 := { c0 with filtering := true, silenced := true }
      let q := runPredicate c1 act
      let c2 := { q.1 with silenced := false }
      let q2 : Collection × List Event :=
        match q.2.2 with
        | none => (c2, [])
        | some none => reset c2 none
        | some (some l) => reset c2 (some l)
      let c3 := { q2.1 with filtering := false }
      let c4 := if (c3.uRecords.getD []).length ≠ 0 then { c3 with filtered := true } else c3
      (c4, q.2.1 ++ q2.2)
  else (c0, [])

/-- A sequence of filter applications (each one `filter` event reaching
`_filterContent` with its predicate). -/
def applyFilters (c : Collection) : List FilterAction → Collection × List Event
  | [] => (c, [])
  | p :: ps =>
    let q := filterContent c (some p)
    let q2 := applyFilters q.1 ps
    (q2.1, q.2 ++ q2.2)

/-- A freshly constructed, unfiltered collection over the given initial data
(the constructor copies the parsed data into `records` and initializes
`length` from it), with the given model-kind configuration. -/
def initColl (rs : List Slot) (pk : String) (mks : Option (List String)) : Collection :=
  { records := rs, length := rs.length, filtered := false, filtering := false,
    silenced := false, uRecords := none, instanceAllRecords := false,
    primaryKey := pk, mergeKeys := mks, nextId := 0, destroyAllFlag := false }

/-- Recognizer for length-change notifications. -/
def isLengthChg : Event → Bool
  | .lengthChg _ _ => true
  | _ => false

/-- Recognizer for `add` events. -/
def isAddE : Event → Bool
  | .addE _ => true
  | _ => false

/-- Recognizer for `reset` events. -/
def isResetE : Event → Bool
  | .resetE _ => true
  | _ => false

/-- Recognizer for record `destroy` events. -/
def isRecDestroyed : Event → Bool
  | .recDestroyed _ => true
  | _ => false

/-- The identity carried by a record `destroy` event, if any. -/
def recDestroyedId : Event → Option Nat
  | .recDestroyed i => some i
  | _ => none

/-- The (pre-removal index, record) pairs that the first pass of `remove`
resolves: the batch up to its first falsy entry, keeping the entries found in
the collection paired with their `indexOf` position. -/
def foundPairs (recs : List Slot) : List Slot → List (Nat × Entry)
  | [] => []
  | none :: _ => []
  | some e :: rest =>
    match idxOf e recs with
    | some i => (i, e) :: foundPairs recs rest
    | none => foundPairs recs rest

/-- The index list that the scan of `add` produces for a batch spliced in at
`i`: the position `j + i` of every batch entry, up to the first falsy entry,
that was not already a record instance. -/
def rawIdxs (i : Nat) : List Slot → Nat → List Nat
  | [], _ => []
  | none :: _, _ => []
  | some e :: rest, j =>
    if e.isRec then rawIdxs i rest (j + 1)
    else (j + i) :: rawIdxs i rest (j + 1)

/-- Equality of every declared merge key between an incoming and a candidate
attribute bag, with the source's loop semantics: keys are consulted up to the
first falsy (empty) key, and an empty effective key list never matches. -/
def mkAll (rA cA : Attrs) (mkl : List String) : Bool :=
  let ks := mkl.takeWhile (fun s => decide (s ≠ ""))
  decide (ks ≠ []) && ks.all (fun k => rA.lookup k == cA.lookup k)

/-- The matching rule the source applies to an incoming item against the
first candidate: a defined primary-key value equal to the candidate's wins
outright; otherwise, when merge keys are declared, every effective merge key
must be equal. -/
def matchesFirst (pk : String) (mks : Option (List String)) (rA cA : Attrs) : Bool :=
  ((rA.lookup pk).isSome && ((rA.lookup pk) == cA.lookup pk)) ||
  (match mks with
   | some mkl => mkAll rA cA mkl
   | none => false)

/-- An entry that can match itself under the merge rule: either its
primary-key value is defined, or merge keys are declared with a non-empty
effective key list. -/
def usableKey (pk : String) (mks : Option (List String)) (e : Entry) : Prop :=
  (e.attrs.lookup pk).isSome = true ∨
  ∃ mkl, mks = some mkl ∧ mkl.takeWhile (fun s => decide (s ≠ "")) ≠ []

/-- Invariant of the filter overlay over the states reachable by filter
applications from a fresh collection over `rs0`: either unfiltered with no
undo buffer and the original sequence in place, or filtered with the original
(non-empty) sequence held in the undo buffer. -/
def FilterInv (rs0 : List Slot) (c : Collection) : Prop :=
  c.filtering = false ∧ c.silenced = false ∧
  ((c.filtered = false ∧ c.uRecords = none ∧ c.records = rs0 ∧ c.length = rs0.length) ∨
   (c.filtered = true ∧ c.uRecords = some rs0 ∧ rs0 ≠ [] ∧ c.length = c.records.length))

/-! ### Concrete records used by witnesses and counterexamples -/

/-- Sample materialized record `A`. -/
def eA : Entry := { id := 10, attrs := [("id", 1)], isRec := true, destroyed := false }

/-- Sample materialized record `B`. -/
def eB : Entry := { id := 11, attrs := [("id", 2)], isRec := true, destroyed := false }

/-- Sample materialized record `C`. -/
def eC : Entry := { id := 12, attrs := [("id", 3)], isRec := true, destroyed := false }

/-- Sample materialized record `D`. -/
def eD : Entry := { id := 13, attrs := [("id", 4)], isRec := true, destroyed := false }

/-- Sample raw hash. -/
def rJ : Entry := { id := 20, attrs := [("id", 5)], isRec := false, destroyed := false }

/-- Sample raw hash already marked destroyed. -/
def rDead : Entry := { id := 21, attrs := [("id", 6)], isRec := false, destroyed := true }

/-- Collection holding [A]. -/
def cA1 : Collection := initColl [some eA] "id" none

/-- Collection holding [A, B]. -/
def cAB : Collection := initColl [some eA, some eB] "id" none

/-- Collection holding [A, B, C]. -/
def cABC : Collection := initColl [some eA, some eB, some eC] "id" none

/-- Collection holding [A, B, C, D]. -/
def cABCD : Collection := initColl [some eA, some eB, some eC, some eD] "id" none

/-- Empty collection. -/
def cNil : Collection := initColl [] "id" none

/-- Collection holding [A, null, B]: a falsy slot sits before the end. -/
def cGap : Collection := initColl [some eA, none, some eB] "id" none

/-- Raw local slot `{id:1, a:2}` for the merge-matching scenario. -/
def rLoc : Entry := { id := 30, attrs := [("id", 1), ("a", 2)], isRec := false, destroyed := false }

/-- Raw incoming item `{id:1, a:3}`: same primary key as `rLoc`, different
merge-key value. -/
def rInc : Entry := { id := 31, attrs := [("id", 1), ("a", 3)], isRec := false, destroyed := false }

/-- Collection holding the single raw slot `rLoc`, with `mergeKeys = ["a"]`. -/
def cMK : Collection := initColl [some rLoc] "id" (some ["a"])

/-! ### Supporting lemmas -/

/-- `indexOf` results are valid positions. -/
theorem idxOf_lt_length (r : Entry) :
    ∀ (l : List Slot) (i : Nat), idxOf r l = some i → i < l.length := by
  intro l
  induction l with
  | nil => intro i h; simp [idxOf] at h
  | cons s rest ih =>
    intro i h
    match s with
    | some e =>
      by_cases hid : (e.id == r.id) = true
      · simp [idxOf, hid] at h
        simp [← h]
      · simp [idxOf, hid, Option.map_eq_some'] at h
        obtain ⟨j, hj, hji⟩ := h
        have := ih j hj
        simp
        omega
    | none =>
      simp [idxOf, Option.map_eq_some'] at h
      obtain ⟨j, hj, hji⟩ := h
      have := ih j hj
      simp
      omega

/-- Every pair collected by the first pass of `remove` records the `indexOf`
position of its record. -/
theorem foundPairs_mem (recs : List Slot) :
    ∀ (batch : List Slot) (p : Nat × Entry),
      p ∈ foundPairs recs batch → idxOf p.2 recs = some p.1 := by
  intro batch
  induction batch with
  | nil => intro p h; simp [foundPairs] at h
  | cons s rest ih =>
    intro p h
    match s with
    | none => simp [foundPairs] at h
    | some e =>
      rw [foundPairs] at h
      cases hio : idxOf e recs with
      | some i =>
        rw [hio] at h
        rcases List.mem_cons.mp h with h1 | h2
        · subst h1; exact hio
        · exact ih p h2
      | none =>
        rw [hio] at h
        exact ih p h

/-- `d[i] = r` appends when the key is new. -/
theorem upsert_fresh (d : List (Nat × Entry)) (i : Nat) (r : Entry)
    (h : ∀ p ∈ d, p.1 ≠ i) : upsert d i r = d ++ [(i, r)] := by
  unfold upsert
  have ha : d.any (fun p => p.1 == i) = false := by
    rw [List.any_eq_false]
    intro p hp
    simp [h p hp]
  simp [ha]

/-- When the found indices arrive in strictly ascending order, the three-way
placement of `remove` only takes the prepend/append branches and reproduces
exactly the found pairs, in order. -/
theorem rmPass1_asc (recs : List Slot) :
    ∀ (batch : List Slot) (acc : List (Nat × Entry)) (x : Nat),
      (∀ a ∈ acc.map Prod.fst, a ≤ x) →
      List.Chain' (· < ·) (acc.map Prod.fst ++ (foundPairs recs batch).map Prod.fst) →
      (∀ i ∈ (foundPairs recs batch).map Prod.fst, x ≤ i) →
      rmPass1 recs batch (acc.map Prod.fst) acc 0 x =
        (acc.map Prod.fst ++ (foundPairs recs batch).map Prod.fst,
         acc ++ foundPairs recs batch) := by
  intro batch
  induction batch with
  | nil =>
    intro acc x h1 h2 h3
    simp [rmPass1, foundPairs]
  | cons s rest ih =>
    intro acc x h1 h2 h3
    match s with
    | none => simp [rmPass1, foundPairs]
    | some e =>
      cases hio : idxOf e recs with
      | none =>
        have hf : foundPairs recs (some e :: rest) = foundPairs recs rest := by
          rw [foundPairs, hio]
        rw [hf] at h2 h3
        rw [rmPass1, hio, hf]
        exact ih acc x h1 h2 h3
      | some i =>
        have hf : foundPairs recs (some e :: rest) = (i, e) :: foundPairs recs rest := by
          rw [foundPairs, hio]
        rw [hf] at h2 h3
        have hpw : List.Pairwise (· < ·)
            (acc.map Prod.fst ++ i :: (foundPairs recs rest).map Prod.fst) := by
          rw [← List.chain'_iff_pairwise]
          simpa using h2
        have hacc_lt : ∀ a ∈ acc.map Prod.fst, a < i := by
          intro a hamem
          exact (List.pairwise_append.mp hpw).2.2 a hamem i (by simp)
        have hrest_gt : ∀ j ∈ (foundPairs recs rest).map Prod.fst, i < j := by
          intro j hj
          have := (List.pairwise_append.mp hpw).2.1
          exact (List.pairwise_cons.mp this).1 j hj
        have hxle : x ≤ i := h3 i (by simp)
        have hfresh : upsert acc i e = acc ++ [(i, e)] := by
          apply upsert_fresh
          intro p hp
          have := hacc_lt p.1 (List.mem_map_of_mem Prod.fst hp)
          omega
        by_cases hzero : i ≤ 0
        · have hi0 : i = 0 := by omega
          have hx0 : x = 0 := by omega
          have haccnil : acc = [] := by
            cases acc with
            | nil => rfl
            | cons p ps =>
              have := hacc_lt p.1 (by simp)
              omega
          subst haccnil
          subst hi0
          subst hx0
          have hrec := ih [(0, e)] 0
            (by intro a ha; simp at ha; omega)
            (by simpa using h2)
            (by intro j hj; exact Nat.le_of_lt (hrest_gt j hj))
          simp only [rmPass1, hio, hf]
          rw [if_pos (Nat.le_refl 0)]
          have hfr : upsert ([] : List (Nat × Entry)) 0 e = [(0, e)] := by
            simp [upsert]
          rw [hfr]
          simpa using hrec
        · have hrec := ih (acc ++ [(i, e)]) i
            (by
              intro a ha
              rw [List.map_append] at ha
              rcases List.mem_append.mp ha with hmem | hmem
              · exact Nat.le_of_lt (hacc_lt a hmem)
              · simp at hmem
                omega)
            (by simpa using h2)
            (by intro j hj; exact Nat.le_of_lt (hrest_gt j hj))
          simp only [rmPass1, hio, hf]
          rw [if_neg hzero, if_pos (by omega : i ≥ x), hfresh]
          simpa using hrec

/-- Erasing a strictly descending list of valid indices removes exactly one
slot per index. -/
theorem eraseList_length :
    ∀ (ds : List Nat) (l : List Slot),
      List.Pairwise (· > ·) ds → (∀ i ∈ ds, i < l.length) →
      (eraseList l ds).length + ds.length = l.length := by
  intro ds
  induction ds with
  | nil => intro l _ _; simp [eraseList]
  | cons i rest ih =>
    intro l hp hb
    rw [eraseList]
    have hi : i < l.length := hb i (by simp)
    have hlen : (l.eraseIdx i).length = l.length - 1 := by
      rw [List.length_eraseIdx]
      rw [if_pos hi]
    have hrest : ∀ j ∈ rest, j < (l.eraseIdx i).length := by
      intro j hj
      have hji : i > j := (List.pairwise_cons.mp hp).1 j hj
      omega
    have := ih (l.eraseIdx i) (List.pairwise_cons.mp hp).2 hrest
    simp only [List.length_cons]
    omega

/-! ### Claim C1 -/

/-- Claim C1 (amended): for every batch whose found records resolve to a
strictly ascending index sequence — in particular any batch of distinct
records listed in ascending position order — `remove` returns the map whose
keys are exactly the pre-removal `indexOf` positions of the records found,
the internal ordering list is ascending and duplicate-free and is processed
in descending order, and the post-removal length equals the prior length
minus the number of matched records. -/
theorem C1_remove_amended (c : Collection) (batch : List Slot)
    (hf : c.filtered = false) (hlen : c.length = c.records.length)
    (hasc : List.Chain' (· < ·) ((foundPairs c.records batch).map Prod.fst)) :
    (remove c batch).1 = foundPairs c.records batch ∧
    (∀ p ∈ (remove c batch).1, idxOf p.2 c.records = some p.1) ∧
    (remove c batch).2.1.length + (foundPairs c.records batch).length = c.length ∧
    (remove c batch).2.1.length = (remove c batch).2.1.records.length := by
  have hpass := rmPass1_asc c.records batch [] 0
    (by simp) (by simpa using hasc) (by intro i _; exact Nat.zero_le i)
  simp only [List.map_nil, List.nil_append] at hpass
  have hpw : List.Pairwise (· < ·) ((foundPairs c.records batch).map Prod.fst) := by
    rw [← List.chain'_iff_pairwise]
    exact hasc
  have hrev : List.Pairwise (· > ·) (((foundPairs c.records batch).map Prod.fst).reverse) := by
    rw [List.pairwise_reverse]
    exact hpw
  have hbnd : ∀ i ∈ (((foundPairs c.records batch).map Prod.fst).reverse),
      i < c.records.length := by
    intro i hi
    rw [List.mem_reverse] at hi
    obtain ⟨p, hp, hpi⟩ := List.mem_map.mp hi
    have hfound := foundPairs_mem c.records batch p hp
    subst hpi
    exact idxOf_lt_length p.2 c.records p.1 hfound
  have herase := eraseList_length (((foundPairs c.records batch).map Prod.fst).reverse)
      c.records hrev hbnd
  have hd1 : (remove c batch).1 = foundPairs c.records batch := by
    simp [remove, hf, hpass]
  have hrecs : (remove c batch).2.1.records
      = eraseList c.records (((foundPairs c.records batch).map Prod.fst).reverse) := by
    simp [remove, hf, hpass]
  have hlen' : (remove c batch).2.1.length = (remove c batch).2.1.records.length := by
    simp [remove, hf, hpass]
  refine ⟨hd1, ?_, ?_, hlen'⟩
  · intro p hp
    rw [hd1] at hp
    exact foundPairs_mem c.records batch p hp
  · rw [hlen', hrecs, hlen]
    have hkl : (((foundPairs c.records batch).map Prod.fst).reverse).length
        = (foundPairs c.records batch).length := by simp
    omega

/-- Claim C1 witness: on [A,B,C,D], `remove([B,D])` satisfies the amended
theorem's hypotheses; the returned map is {1:B, 3:D} and the final sequence
is [A,C] with length 2 = 4 - 2. -/
theorem C1_remove_amended_witness :
    (remove cABCD [some eB, some eD]).1 = [(1, eB), (3, eD)] ∧
    (remove cABCD [some eB, some eD]).2.1.length + 2 = cABCD.length ∧
    (remove cABCD [some eB, some eD]).2.1.records = [some eA, some eC] := by
  have h1 : foundPairs cABCD.records [some eB, some eD] = [(1, eB), (3, eD)] := by decide
  have hasc : List.Chain' (· < ·) ((foundPairs cABCD.records [some eB, some eD]).map Prod.fst) := by
    rw [h1]
    simp [List.chain'_cons, List.chain'_singleton]
  have h := C1_remove_amended cABCD [some eB, some eD] rfl rfl hasc
  have h2 := h.2.2.1
  rw [h1] at h2
  exact ⟨by rw [h.1, h1], by simpa using h2, by decide⟩

/-- Claim C1 counterexample: on [A,B,C], `remove([C,A,B])` finds all three
records, but the internal ordering list comes out as [1,0,2] — neither
ascending nor processed safely — so only two splices hit valid indices: the
final length is 1, not 3 - 3 = 0, refuting the claimed length law and the
claimed ascending internal ordering. -/
theorem C1_cex :
    (rmPass1 cABC.records [some eC, some eA, some eB] [] [] 0 0).1 = [1, 0, 2] ∧
    (remove cABC [some eC, some eA, some eB]).1 = [(2, eC), (0, eA), (1, eB)] ∧
    (remove cABC [some eC, some eA, some eB]).2.1.length = 1 ∧
    cABC.length - (remove cABC [some eC, some eA, some eB]).1.length = 0 := by
  refine ⟨by decide, by decide, by decide, by decide⟩

/-! ### Claim C2 -/

/-- Claim C2 (code bug): the `&&`-chained index normalization treats the
intermediate value `Math.max(0, 0) = 0` as falsy, so a requested index of `0`
falls through to `len` and the batch is appended instead of inserted at the
front: on the collection [A], `add([J], 0)` produces [A, J], not [J, A]. -/
theorem C2_add_index_zero_appends :
    clampIdx (some 0) cA1.length = 1 ∧
    (add cA1 [some rJ] (some 0)).toOption.map (fun q => (q.1, q.2.1.records)) =
      some ([1], [some eA, some rJ]) := by
  exact ⟨by decide, by decide⟩

/-! ### Claim C3 -/

/-- With the match flag already set, the merge-key loop returns the
conjunction of the remaining effective key comparisons. -/
theorem mkLoop_true (rA cA : Attrs) :
    ∀ (l : List String) (v : Option Int),
      (mkLoop rA cA true v l).1 =
        (l.takeWhile (fun s => decide (s ≠ ""))).all
          (fun k => rA.lookup k == cA.lookup k) := by
  intro l
  induction l with
  | nil => intro v; simp [mkLoop]
  | cons m rest ih =>
    intro v
    by_cases hm : m = ""
    · simp [mkLoop, hm, List.takeWhile_cons]
    · by_cases heq : (rA.lookup m == cA.lookup m) = true
      · simp [mkLoop, hm, heq, List.takeWhile_cons, ih]
      · simp [mkLoop, hm, heq, List.takeWhile_cons]

/-- The merge-key loop starting with a cleared flag computes exactly `mkAll`:
an empty effective key list never matches, and otherwise every effective key
must compare equal. -/
theorem mkLoop_spec (rA cA : Attrs) (l : List String) (v : Option Int) :
    (mkLoop rA cA false v l).1 = mkAll rA cA l := by
  cases l with
  | nil => simp [mkLoop, mkAll]
  | cons m rest =>
    by_cases hm : m = ""
    · simp [mkLoop, mkAll, hm, List.takeWhile_cons]
    · by_cases heq : (rA.lookup m == cA.lookup m) = true
      · simp [mkLoop, mkAll, hm, heq, List.takeWhile_cons, mkLoop_true]
      · simp [mkLoop, mkAll, hm, heq, List.takeWhile_cons]

/-- Claim C3 (amended): merged against a single still-unmatched candidate, an
incoming item matches iff its defined primary-key value equals the
candidate's — the primary-key check is consulted first and overrides the
merge keys — or, that failing, merge keys are declared and every effective
merge key value is equal (logical AND, short-circuiting on the first
mismatch); with no declared merge keys, matching is on primary-key equality
alone, and an item with no usable key is always appended. -/
theorem C3_merge_matching_amended (pk : String) (mks : Option (List String))
    (r cE : Entry) (hrd : r.destroyed = false) :
    (((mks.isSome || (r.attrs.lookup pk).isSome) &&
        matchesFirst pk mks r.attrs cE.attrs) = true →
      ∃ c', merge (initColl [some cE] pk mks) [some r] = .ok (c', []) ∧
        c'.length = 1 ∧ c'.records.length = 1) ∧
    (((mks.isSome || (r.attrs.lookup pk).isSome) &&
        matchesFirst pk mks r.attrs cE.attrs) = false →
      ∃ c' es, merge (initColl [some cE] pk mks) [some r] = .ok (c', es) ∧
        c'.length = 2 ∧ c'.records = [some cE, some r]) := by
  constructor
  · intro hcond
    rw [Bool.and_eq_true] at hcond
    obtain ⟨hguard, hmatch⟩ := hcond
    have hscan : candScan pk mks r.attrs (r.attrs.lookup pk) [some cE] = some (0, cE) := by
      rw [matchesFirst.eq_def, Bool.or_eq_true] at hmatch
      rcases hmatch with hpk | hmk
      · simp [candScan, hpk]
      · cases hmks : mks with
        | none => rw [hmks] at hmk; simp at hmk
        | some mkl =>
          rw [hmks] at hmk
          have hmk2 : mkAll r.attrs cE.attrs mkl = true := hmk
          by_cases hpkc : ((r.attrs.lookup pk).isSome &&
              ((r.attrs.lookup pk) == cE.attrs.lookup pk)) = true
          · simp [candScan, hpkc]
          · simp [candScan, hpkc, mkLoop_spec, hmk2]
    refine ⟨{ initColl [some cE] pk mks with
              records := updateById [some cE] cE.id (mixinAttrs cE.attrs r.attrs) }, ?_, rfl, ?_⟩
    · simp [merge, mergeLoop, initColl, hguard, hscan]
    · simp [updateById]
  · intro hcond
    have happend : ∀ hloop : mergeLoop pk mks [some r] [some cE] [some cE] [] =
          ([some cE], [some cE], [some r]),
        ∃ c' es, merge (initColl [some cE] pk mks) [some r] = .ok (c', es) ∧
          c'.length = 2 ∧ c'.records = [some cE, some r] := by
      intro hloop
      cases hri : r.isRec with
      | true =>
        refine ⟨{ initColl [some cE] pk mks with
                  records := [some cE, some r], length := 2 },
          [Event.lengthChg 1 2], ?_, rfl, rfl⟩
        simp [merge, hloop, add, scanBatch, clampIdx, hri, initColl, emit]
      | false =>
        refine ⟨{ initColl [some cE] pk mks with
                  records := [some cE, some r], length := 2 },
          [Event.lengthChg 1 2, Event.addE [1]], ?_, rfl, rfl⟩
        simp [merge, hloop, add, scanBatch, clampIdx, hri, hrd, initColl, emit]
    rcases Bool.and_eq_false_iff.mp hcond with hguard | hmatch
    · exact happend (by simp [mergeLoop, hguard])
    · have hscan : candScan pk mks r.attrs (r.attrs.lookup pk) [some cE] = none := by
        rw [matchesFirst.eq_def] at hmatch
        have hpkc : ((r.attrs.lookup pk).isSome &&
            ((r.attrs.lookup pk) == cE.attrs.lookup pk)) = false := by
          cases hx : ((r.attrs.lookup pk).isSome &&
              ((r.attrs.lookup pk) == cE.attrs.lookup pk)) with
          | false => rfl
          | true => rw [hx] at hmatch; simp at hmatch
        cases hmks : mks with
        | none => simp [candScan, hpkc]
        | some mkl =>
          rw [hmks, hpkc] at hmatch
          have hmatch2 : (false || mkAll r.attrs cE.attrs mkl) = false := hmatch
          have hmk : mkAll r.attrs cE.attrs mkl = false := by simpa using hmatch2
          simp [candScan, hpkc, mkLoop_spec, hmk]
      refine happend ?_
      by_cases hg : (mks.isSome || (r.attrs.lookup pk).isSome) = true
      · simp [mergeLoop, hg, hscan]
      · simp [mergeLoop, hg]

/-- Claim C3 witness: a materialized incoming record with primary key 1 and
merge key value 3 matches the single candidate with primary key 1 and merge
key value 2: the amended theorem applies in its matched branch, so the
collection keeps length 1. -/
theorem C3_merge_matching_amended_witness :
    ∃ c', merge (initColl [some rLoc] "id" (some ["a"])) [some rInc] = .ok (c', []) ∧
      c'.length = 1 ∧ c'.records.length = 1 := by
  exact (C3_merge_matching_amended "id" (some ["a"]) rInc rLoc rfl).1 (by decide)

/-- Claim C3 counterexample: with `mergeKeys = ["a"]` declared, the incoming
item {id:1, a:3} matches the local slot {id:1, a:2} on primary-key equality
alone even though the merge-key value differs: nothing is appended (length
stays 1, where the claim requires appending to length 2) and the slot's `a`
becomes 3. -/
theorem C3_cex :
    (merge cMK [some rInc]).toOption.map
        (fun q => (q.1.length,
          q.1.records.map (fun s => s.map (fun e2 => e2.attrs.lookup "a")))) =
      some (1, [some (some 3)]) ∧ (1 : Nat) ≠ 2 := by
  exact ⟨by decide, by decide⟩

/-! ### Claim C4 -/

/-- One filter application preserves the filter-overlay invariant. -/
theorem filterContent_inv (rs0 : List Slot) (c : Collection) (p : FilterAction)
    (h : FilterInv rs0 c) : FilterInv rs0 (filterContent c (some p)).1 := by
  obtain ⟨hfg, hsil, hcase⟩ := h
  by_cases hx : (c.length ≠ 0 ∨ (c.uRecords.getD []).length ≠ 0)
  case neg =>
    have hguard : ¬(¬c.filtering = true ∧
        (c.length ≠ 0 ∨ (c.uRecords.getD []).length ≠ 0)) := by
      intro hcontra
      exact hx hcontra.2
    rw [filterContent, if_neg hguard]
    exact ⟨hfg, hsil, hcase⟩
  case pos =>
    have hguard : (¬c.filtering = true ∧
        (c.length ≠ 0 ∨ (c.uRecords.getD []).length ≠ 0)) := ⟨by simp [hfg], hx⟩
    rcases hcase with ⟨hfil, hbuf, hrec, hlen⟩ | ⟨hfil, hbuf, hne, hlen⟩
    · have hrs0 : rs0 ≠ [] := by
        rcases hx with hl | hb
        · intro hnil
          rw [hlen, hnil] at hl
          simp at hl
        · rw [hbuf] at hb
          simp at hb
      cases p with
      | falsy =>
        rw [filterContent, if_pos hguard]
        refine ⟨?_, ?_, Or.inl ⟨?_, ?_, ?_, ?_⟩⟩ <;>
          simp [runPredicate, hbuf, hfil, hrec, hlen]
      | arr l =>
        rw [filterContent, if_pos hguard]
        refine ⟨?_, ?_, Or.inr ⟨?_, ?_, hrs0, ?_⟩⟩ <;>
          simp [runPredicate, reset, emit, hbuf, hfil, hrec, hlen, hrs0]
      | selfReset l =>
        rw [filterContent, if_pos hguard]
        refine ⟨?_, ?_, Or.inr ⟨?_, ?_, hrs0, ?_⟩⟩ <;>
          simp [runPredicate, reset, emit, hbuf, hfil, hrec, hlen, hrs0]
    · cases p with
      | falsy =>
        rw [filterContent, if_pos hguard]
        refine ⟨?_, ?_, Or.inr ⟨?_, ?_, hne, ?_⟩⟩ <;>
          simp [runPredicate, hbuf, hfil, hlen, hne]
      | arr l =>
        rw [filterContent, if_pos hguard]
        refine ⟨?_, ?_, Or.inr ⟨?_, ?_, hne, ?_⟩⟩ <;>
          simp [runPredicate, reset, emit, hbuf, hfil, hlen, hne]
      | selfReset l =>
        rw [filterContent, if_pos hguard]
        refine ⟨?_, ?_, Or.inl ⟨?_, ?_, ?_, ?_⟩⟩ <;>
          simp [runPredicate, reset, emit, hbuf, hfil, hlen, hne]

/-- Any sequence of filter applications preserves the invariant. -/
theorem applyFilters_inv (rs0 : List Slot) :
    ∀ (ps : List FilterAction) (c : Collection),
      FilterInv rs0 c → FilterInv rs0 (applyFilters c ps).1 := by
  intro ps
  induction ps with
  | nil =>
    intro c h
    simpa [applyFilters] using h
  | cons p rest ih =>
    intro c h
    simp only [applyFilters]
    exact ih _ (filterContent_inv rs0 c p h)

/-- A fresh collection satisfies the invariant. -/
theorem initColl_inv (rs0 : List Slot) (pk : String) (mks : Option (List String)) :
    FilterInv rs0 (initColl rs0 pk mks) :=
  ⟨rfl, rfl, Or.inl ⟨rfl, rfl, rfl, rfl⟩⟩

/-- Claim C4: from any filtered state reached by a sequence of filter
applications, `reset()` with no argument restores the slot sequence to
exactly the pre-filter snapshot held in the undo buffer, clears the buffer,
sets `filtered` to false, recomputes `length`, and emits exactly one reset
notification. -/
theorem C4_reset_restores (rs0 : List Slot) (pk : String) (mks : Option (List String))
    (ps : List FilterAction)
    (hf : (applyFilters (initColl rs0 pk mks) ps).1.filtered = true) :
    (reset (applyFilters (initColl rs0 pk mks) ps).1 none).1.records = rs0 ∧
    (reset (applyFilters (initColl rs0 pk mks) ps).1 none).1.uRecords = none ∧
    (reset (applyFilters (initColl rs0 pk mks) ps).1 none).1.filtered = false ∧
    (reset (applyFilters (initColl rs0 pk mks) ps).1 none).1.length = rs0.length ∧
    (reset (applyFilters (initColl rs0 pk mks) ps).1 none).2.countP isResetE = 1 := by
  obtain ⟨hfg, hsil, hcase⟩ := applyFilters_inv rs0 ps _ (initColl_inv rs0 pk mks)
  rcases hcase with ⟨hfil, _, _, _⟩ | ⟨hfil, hbuf, hne, hlen⟩
  · rw [hf] at hfil
    cases hfil
  · refine ⟨?_, ?_, ?_, ?_, ?_⟩
    · simp [reset, hf, hbuf]
    · simp [reset, hf, hbuf]
    · simp [reset, hf, hbuf]
    · simp [reset, hf, hbuf]
    · by_cases hchg :
        (applyFilters (initColl rs0 pk mks) ps).1.records.length ≠ rs0.length
      · simp [reset, hf, hbuf, emit, hsil, hchg, List.countP_append,
          List.countP_cons, isResetE, isLengthChg]
      · simp [reset, hf, hbuf, emit, hsil, hchg, List.countP_append,
          List.countP_cons, isResetE, isLengthChg]

/-- Claim C4 witness: filtering [A,B,C] down to [B] and then calling
`reset()` restores [A,B,C], clears the buffer, unsets `filtered`, restores
length 3 and emits exactly one reset notification. -/
theorem C4_reset_restores_witness :
    (reset (applyFilters (initColl [some eA, some eB, some eC] "id" none)
        [FilterAction.arr [some eB]]).1 none).1.records = [some eA, some eB, some eC] ∧
    (reset (applyFilters (initColl [some eA, some eB, some eC] "id" none)
        [FilterAction.arr [some eB]]).1 none).1.uRecords = none ∧
    (reset (applyFilters (initColl [some eA, some eB, some eC] "id" none)
        [FilterAction.arr [some eB]]).1 none).1.filtered = false ∧
    (reset (applyFilters (initColl [some eA, some eB, some eC] "id" none)
        [FilterAction.arr [some eB]]).1 none).1.length = 3 ∧
    (reset (applyFilters (initColl [some eA, some eB, some eC] "id" none)
        [FilterAction.arr [some eB]]).1 none).2.countP isResetE = 1 :=
  C4_reset_restores [some eA, some eB, some eC] "id" none [FilterAction.arr [some eB]] rfl

/-! ### Claim C5 -/

/-- Claim C5: after each mutating operation (`add`, `remove`, `reset`) on an
unfiltered, unsilenced collection whose cached `length` matches its records
array, the cached `length` again equals the records array length, and exactly
one length-change notification fires iff the value changed during the call
(`reset` needs no unfiltered hypothesis: both of its branches are covered). -/
theorem C5_length_invariant :
    (∀ (c : Collection) (batch : List Slot) (idx : Option Int) (idxs : List Nat)
       (c' : Collection) (es : List Event),
       c.filtered = false → c.silenced = false → c.length = c.records.length →
       add c batch idx = .ok (idxs, c', es) →
       c'.length = c'.records.length ∧
       es.countP isLengthChg = (if c.length ≠ c'.length then 1 else 0)) ∧
    (∀ (c : Collection) (batch : List Slot),
       c.filtered = false → c.silenced = false → c.length = c.records.length →
       (remove c batch).2.1.length = (remove c batch).2.1.records.length ∧
       (remove c batch).2.2.countP isLengthChg =
         (if c.length ≠ (remove c batch).2.1.length then 1 else 0)) ∧
    (∀ (c : Collection) (arg : Option (List Slot)),
       c.silenced = false → c.length = c.records.length →
       (reset c arg).1.length = (reset c arg).1.records.length ∧
       (reset c arg).2.countP isLengthChg =
         (if c.length ≠ (reset c arg).1.length then 1 else 0)) := by
  refine ⟨?_, ?_, ?_⟩
  · intro c batch idx idxs c' es hf hs hlen hok
    simp only [add, hf, Bool.false_eq_true, if_false] at hok
    by_cases hb : batch.length = 0
    · rw [if_pos hb] at hok
      simp only [Except.ok.injEq, Prod.mk.injEq] at hok
      obtain ⟨h1, h2, h3⟩ := hok
      subst h1
      subst h2
      subst h3
      refine ⟨hlen, ?_⟩
      simp
    · rw [if_neg hb] at hok
      cases hsc : scanBatch c.instanceAllRecords (clampIdx idx c.length) batch 0 c.nextId with
      | error s =>
        rw [hsc] at hok
        cases hok
      | ok t =>
        obtain ⟨batch', idxs', nid⟩ := t
        rw [hsc] at hok
        simp only [Except.ok.injEq, Prod.mk.injEq] at hok
        obtain ⟨h1, h2, h3⟩ := hok
        subst h1
        subst h2
        subst h3
        constructor
        · rfl
        · set recs := c.records.take (clampIdx idx c.length) ++ batch' ++
              c.records.drop (clampIdx idx c.length) with hrecs
          by_cases hchg : c.length ≠ recs.length
          · by_cases hi : idxs'.length = 0
            · simp [hchg, hi, emit, hs, List.countP_append, List.countP_cons,
                isLengthChg]
            · simp [hchg, hi, emit, hs, List.countP_append, List.countP_cons,
                isLengthChg]
          · by_cases hi : idxs'.length = 0
            · simp [hchg, hi, emit, hs, List.countP_append, List.countP_cons,
                isLengthChg]
            · simp [hchg, hi, emit, hs, List.countP_append, List.countP_cons,
                isLengthChg]
  · intro c batch hf hs hlen
    constructor
    · simp [remove, hf]
    · by_cases hchg : c.length ≠
          (eraseList c.records (rmPass1 c.records batch [] [] 0 0).1.reverse).length
      · by_cases hr : (rmPass1 c.records batch [] [] 0 0).1.length = 0
        · simp [remove, hf, hchg, hr, emit, hs, List.countP_append,
            List.countP_cons, isLengthChg]
        · simp [remove, hf, hchg, hr, emit, hs, List.countP_append,
            List.countP_cons, isLengthChg]
      · by_cases hr : (rmPass1 c.records batch [] [] 0 0).1.length = 0
        · simp [remove, hf, hchg, hr, emit, hs, List.countP_append,
            List.countP_cons, isLengthChg]
        · simp [remove, hf, hchg, hr, emit, hs, List.countP_append,
            List.countP_cons, isLengthChg]
  · intro c arg hs hlen
    cases arg with
    | none =>
      by_cases hfil : c.filtered = true
      · constructor
        · simp [reset, hfil]
        · by_cases hchg : c.records.length ≠ (c.uRecords.getD []).length
          · simp [reset, hfil, hchg, emit, hs, hlen, List.countP_append,
              List.countP_cons, isLengthChg, isResetE]
          · simp [reset, hfil, hchg, emit, hs, hlen, List.countP_append,
              List.countP_cons, isLengthChg, isResetE]
      · have hfil' : c.filtered = false := by
          cases hx : c.filtered
          · rfl
          · exact absurd hx hfil
        constructor
        · simp [reset, hfil', hlen]
        · simp [reset, hfil']
    | some arr =>
      by_cases hsnap : (c.filtering = true ∧ c.filtered = false)
      · constructor
        · simp [reset, hsnap]
        · by_cases hchg : c.records.length ≠ arr.length
          · simp [reset, hsnap, hchg, emit, hs, hlen, List.countP_append,
              List.countP_cons, isLengthChg, isResetE]
          · simp [reset, hsnap, hchg, emit, hs, hlen, List.countP_append,
              List.countP_cons, isLengthChg, isResetE]
      · constructor
        · simp [reset, hsnap]
        · by_cases hchg : c.records.length ≠ arr.length
          · simp [reset, hsnap, hchg, emit, hs, hlen, List.countP_append,
              List.countP_cons, isLengthChg, isResetE]
          · simp [reset, hsnap, hchg, emit, hs, hlen, List.countP_append,
              List.countP_cons, isLengthChg, isResetE]

/-- Claim C5 witness: adding the raw hash `J` to the empty collection changes
`length` from 0 to 1 = records length and fires exactly one length-change
notification. -/
theorem C5_length_invariant_witness :
    ∃ (idxs : List Nat) (c' : Collection) (es : List Event),
      add cNil [some rJ] none = .ok (idxs, c', es) ∧
      c'.length = c'.records.length ∧
      es.countP isLengthChg = (if cNil.length ≠ c'.length then 1 else 0) := by
  have hadd : add cNil [some rJ] none =
      .ok ([0], { cNil with records := [some rJ], length := 1 },
        [Event.lengthChg 0 1, Event.addE [0]]) := by rfl
  have h := C5_length_invariant.1 cNil [some rJ] none [0]
    { cNil with records := [some rJ], length := 1 }
    [Event.lengthChg 0 1, Event.addE [0]] rfl rfl rfl hadd
  exact ⟨_, _, _, hadd, h.1, h.2⟩

/-! ### Claim C6 -/

/-- The scan of `add` raises the destroyed-record error as soon as it reaches
a raw destroyed entry, provided eager instantiation is off and every earlier
batch entry is a truthy record instance or live raw hash. -/
theorem scanBatch_destroyed (i : Nat) (e : Entry) (post : List Slot)
    (he : e.isRec = false) (hd : e.destroyed = true) :
    ∀ (pre : List Slot) (j nid : Nat),
      (∀ s ∈ pre, ∃ e', s = some e' ∧ (e'.isRec = true ∨ e'.destroyed = false)) →
      scanBatch false i (pre ++ some e :: post) j nid =
        .error "enyo.Collection.add: cannot add a record that has already been destroyed" := by
  intro pre
  induction pre with
  | nil =>
    intro j nid _
    simp [scanBatch, he, hd]
  | cons s rest ih =>
    intro j nid hpre
    obtain ⟨e', hse, hcase⟩ := hpre s (by simp)
    subst hse
    have hrest : ∀ s2 ∈ rest, ∃ e2, s2 = some e2 ∧
        (e2.isRec = true ∨ e2.destroyed = false) := by
      intro s2 hs2
      exact hpre s2 (by simp [hs2])
    rcases hcase with hc | hc
    · simp [scanBatch, hc, ih (j + 1) nid hrest]
    · by_cases hr : e'.isRec = true
      · simp [scanBatch, hr, ih (j + 1) nid hrest]
      · simp [scanBatch, hr, hc, ih (j + 1) nid hrest]

/-- Claim C6 (amended): on a collection that does not eagerly instantiate
records (`instanceAllRecords = false`, the default), an unfiltered `add` call
whose batch reaches a raw entry already marked destroyed — every earlier
entry being a truthy record instance or live raw hash — raises the
destroyed-record error synchronously and fatally: no insertion happens and
the collection is returned unchanged. -/
theorem C6_add_destroyed_raw_amended (c : Collection) (pre post : List Slot)
    (e : Entry) (idx : Option Int)
    (he : e.isRec = false) (hd : e.destroyed = true)
    (heager : c.instanceAllRecords = false) (hf : c.filtered = false)
    (hpre : ∀ s ∈ pre, ∃ e', s = some e' ∧ (e'.isRec = true ∨ e'.destroyed = false)) :
    add c (pre ++ some e :: post) idx =
      .error ("enyo.Collection.add: cannot add a record that has already been destroyed",
        c, []) := by
  have hsc := scanBatch_destroyed (clampIdx idx c.length) e post he hd pre 0 c.nextId hpre
  have hb : (pre ++ some e :: post).length ≠ 0 := by simp
  simp [add, hf, hb, heager, hsc]

/-- Claim C6 witness: adding the destroyed raw hash alone on the unfiltered
lazy collection [A] raises the error synchronously and leaves the collection
untouched. -/
theorem C6_add_destroyed_raw_amended_witness :
    add cA1 [some rDead] none =
      .error ("enyo.Collection.add: cannot add a record that has already been destroyed",
        cA1, []) :=
  C6_add_destroyed_raw_amended cA1 [] [] rDead none rfl rfl rfl rfl (by simp)

/-- Claim C6 counterexample: the scan stops at the first falsy batch entry,
so a raw item already marked destroyed that sits after a `null` entry raises
no error at all — the call succeeds and even splices the destroyed hash in —
refuting the claim that every such call raises synchronously. -/
theorem C6_cex :
    (add cNil [none, some rDead] none).toOption.map
        (fun q => (q.1, q.2.1.records, q.2.1.length)) =
      some ([], [none, some rDead], 2) := by
  decide

/-! ### Claim C7 -/

/-- `updateById` never changes the number of slots. -/
theorem updateById_length (recs : List Slot) (tid : Nat) (a : Attrs) :
    (updateById recs tid a).length = recs.length := by
  simp [updateById]

/-- An attribute bag passes the merge-key comparison against itself whenever
the effective key list is non-empty. -/
theorem mkAll_refl (rA : Attrs) (l : List String)
    (hne : l.takeWhile (fun s => decide (s ≠ "")) ≠ []) :
    mkAll rA rA l = true := by
  simp only [mkAll, Bool.and_eq_true, decide_eq_true_eq, List.all_eq_true]
  exact ⟨hne, fun k _ => beq_self_eq_true (rA.lookup k)⟩

/-- An entry with a usable key matches itself at the head of the candidate
pool. -/
theorem candScan_self (pk : String) (mks : Option (List String)) (e : Entry)
    (rest : List Slot) (huse : usableKey pk mks e) :
    candScan pk mks e.attrs (e.attrs.lookup pk) (some e :: rest) = some (0, e) := by
  rcases huse with hpk | ⟨mkl, hmks, hne⟩
  · simp [candScan, hpk]
  · subst hmks
    cases hv : (e.attrs.lookup pk).isSome with
    | true => simp [candScan, hv]
    | false => simp [candScan, hv, mkLoop_spec, mkAll_refl e.attrs mkl hne]

/-- Merging a sequence of entries against an identical pool consumes the pool
head at every step: nothing is scheduled for append and the records array
keeps its length. -/
theorem mergeLoop_self (pk : String) (mks : Option (List String)) :
    ∀ (l : List Entry) (recs : List Slot) (acc : List Slot),
      (∀ e ∈ l, usableKey pk mks e) →
      (mergeLoop pk mks (l.map some) (l.map some) recs acc).2.2 = acc ∧
      (mergeLoop pk mks (l.map some) (l.map some) recs acc).1.length = recs.length := by
  intro l
  induction l with
  | nil =>
    intro recs acc _
    simp [mergeLoop]
  | cons e rest ih =>
    intro recs acc hkey
    have hguard : (mks.isSome || (e.attrs.lookup pk).isSome) = true := by
      rcases hkey e (by simp) with hpk | ⟨mkl, hmks, _⟩
      · simp [hpk]
      · simp [hmks]
    have hscan := candScan_self pk mks e (rest.map some) (hkey e (by simp))
    have hrest : ∀ e2 ∈ rest, usableKey pk mks e2 := by
      intro e2 h2
      exact hkey e2 (by simp [h2])
    have ihr := ih (updateById recs e.id (mixinAttrs e.attrs e.attrs)) acc hrest
    simp only [List.map_cons, mergeLoop, hguard, hscan, List.eraseIdx_cons_zero,
      eq_self_iff_true, if_true]
    exact ⟨ihr.1, by rw [ihr.2, updateById_length]⟩

/-- Claim C7: `merge` is idempotent for an already-fully-matching batch:
merging the exact current contents of the collection (each record carrying a
usable key) leaves `length` unchanged and produces no `add` event — indeed no
event at all. -/
theorem C7_merge_idempotent (c : Collection) (l : List Entry)
    (hrec : c.records = l.map some)
    (hkey : ∀ e ∈ l, usableKey c.primaryKey c.mergeKeys e) :
    ∃ c', merge c c.records = .ok (c', []) ∧ c'.length = c.length ∧
      c'.records.length = c.records.length := by
  rw [hrec]
  refine ⟨{ c with records :=
      (mergeLoop c.primaryKey c.mergeKeys (l.map some) (l.map some) (l.map some) []).1 },
    ?_, rfl, ?_⟩
  · have h1 := (mergeLoop_self c.primaryKey c.mergeKeys l (l.map some) [] hkey).1
    simp [merge, hrec, h1]
  · have h2 := (mergeLoop_self c.primaryKey c.mergeKeys l (l.map some) [] hkey).2
    simpa using h2

/-- Claim C7 witness: merging [A, B] (both with defined primary keys) into
the collection already holding exactly [A, B] succeeds with no events and
unchanged length. -/
theorem C7_merge_idempotent_witness :
    ∃ c', merge cAB cAB.records = .ok (c', []) ∧ c'.length = cAB.length ∧
      c'.records.length = cAB.records.length := by
  refine C7_merge_idempotent cAB [eA, eB] rfl ?_
  intro e he
  simp at he
  rcases he with rfl | rfl
  · exact Or.inl (by decide)
  · exact Or.inl (by decide)

/-! ### Claim C8 -/

/-- On a successful scan, the collected index list is exactly the `rawIdxs`
specification: the splice position `j + i` of every batch entry, up to the
first falsy one, that was not already a record instance. -/
theorem scanBatch_idxs (eager : Bool) (i : Nat) :
    ∀ (batch : List Slot) (j nid : Nat) (batch' : List Slot) (idxs : List Nat) (nid' : Nat),
      scanBatch eager i batch j nid = .ok (batch', idxs, nid') →
      idxs = rawIdxs i batch j := by
  intro batch
  induction batch with
  | nil =>
    intro j nid batch' idxs nid' h
    simp only [scanBatch, Except.ok.injEq, Prod.mk.injEq] at h
    simp [rawIdxs, ← h.2.1]
  | cons s rest ih =>
    intro j nid batch' idxs nid' h
    match s with
    | none =>
      simp only [scanBatch, Except.ok.injEq, Prod.mk.injEq] at h
      simp [rawIdxs, ← h.2.1]
    | some e =>
      by_cases hr : e.isRec = true
      · rw [scanBatch, if_pos hr] at h
        cases hsc : scanBatch eager i rest (j + 1) nid with
        | error s2 => rw [hsc] at h; cases h
        | ok t =>
          obtain ⟨b2, i2, n2⟩ := t
          rw [hsc] at h
          simp only [Except.ok.injEq, Prod.mk.injEq] at h
          rw [rawIdxs, if_pos hr, ← ih (j + 1) nid b2 i2 n2 hsc]
          exact h.2.1.symm
      · rw [scanBatch, if_neg hr] at h
        by_cases heag : eager = true
        · rw [if_pos heag] at h
          cases hsc : scanBatch eager i rest (j + 1) (nid + 1) with
          | error s2 => rw [hsc] at h; cases h
          | ok t =>
            obtain ⟨b2, i2, n2⟩ := t
            rw [hsc] at h
            simp only [Except.ok.injEq, Prod.mk.injEq] at h
            rw [rawIdxs, if_neg hr, ← ih (j + 1) (nid + 1) b2 i2 n2 hsc]
            exact h.2.1.symm
        · rw [if_neg heag] at h
          by_cases hd : e.destroyed = true
          · rw [if_pos hd] at h
            cases h
          · rw [if_neg hd] at h
            cases hsc : scanBatch eager i rest (j + 1) nid with
            | error s2 => rw [hsc] at h; cases h
            | ok t =>
              obtain ⟨b2, i2, n2⟩ := t
              rw [hsc] at h
              simp only [Except.ok.injEq, Prod.mk.injEq] at h
              rw [rawIdxs, if_neg hr, ← ih (j + 1) nid b2 i2 n2 hsc]
              exact h.2.1.symm

/-- Without eager instantiation a successful scan returns the batch and the
identity counter unchanged. -/
theorem scanBatch_lazy_batch (i : Nat) :
    ∀ (batch : List Slot) (j nid : Nat) (batch' : List Slot) (idxs : List Nat) (nid' : Nat),
      scanBatch false i batch j nid = .ok (batch', idxs, nid') →
      batch' = batch ∧ nid' = nid := by
  intro batch
  induction batch with
  | nil =>
    intro j nid batch' idxs nid' h
    simp only [scanBatch, Except.ok.injEq, Prod.mk.injEq] at h
    exact ⟨h.1.symm, h.2.2.symm⟩
  | cons s rest ih =>
    intro j nid batch' idxs nid' h
    match s with
    | none =>
      simp only [scanBatch, Except.ok.injEq, Prod.mk.injEq] at h
      exact ⟨h.1.symm, h.2.2.symm⟩
    | some e =>
      by_cases hr : e.isRec = true
      · rw [scanBatch, if_pos hr] at h
        cases hsc : scanBatch false i rest (j + 1) nid with
        | error s2 => rw [hsc] at h; cases h
        | ok t =>
          obtain ⟨b2, i2, n2⟩ := t
          rw [hsc] at h
          simp only [Except.ok.injEq, Prod.mk.injEq] at h
          obtain ⟨hb2, hn2⟩ := ih (j + 1) nid b2 i2 n2 hsc
          exact ⟨by rw [← h.1, hb2], by rw [← h.2.2, hn2]⟩
      · rw [scanBatch, if_neg hr, if_neg (by simp)] at h
        by_cases hd : e.destroyed = true
        · rw [if_pos hd] at h
          cases h
        · rw [if_neg hd] at h
          cases hsc : scanBatch false i rest (j + 1) nid with
          | error s2 => rw [hsc] at h; cases h
          | ok t =>
            obtain ⟨b2, i2, n2⟩ := t
            rw [hsc] at h
            simp only [Except.ok.injEq, Prod.mk.injEq] at h
            obtain ⟨hb2, hn2⟩ := ih (j + 1) nid b2 i2 n2 hsc
            exact ⟨by rw [← h.1, hb2], by rw [← h.2.2, hn2]⟩

/-- Claim C8: a successful unfiltered `add` returns exactly the insertion
indices of the batch entries (up to the first falsy one) that were not
already materialized record instances at call time — instances passed in are
inserted but not reported — and fires one `add` event iff that index list is
non-empty, carrying exactly that list; without eager instantiation the batch
is spliced in verbatim at the clamped index. -/
theorem C8_add_event_indices (c : Collection) (batch : List Slot) (idx : Option Int)
    (idxs : List Nat) (c' : Collection) (es : List Event)
    (hf : c.filtered = false) (hs : c.silenced = false)
    (hok : add c batch idx = .ok (idxs, c', es)) :
    idxs = rawIdxs (clampIdx idx c.length) batch 0 ∧
    es.countP isAddE = (if idxs.length = 0 then 0 else 1) ∧
    (∀ l2, Event.addE l2 ∈ es → l2 = idxs) ∧
    (c.instanceAllRecords = false →
      c'.records = c.records.take (clampIdx idx c.length) ++ batch
                    ++ c.records.drop (clampIdx idx c.length)) := by
  simp only [add, hf, Bool.false_eq_true, if_false] at hok
  by_cases hb : batch.length = 0
  · rw [if_pos hb] at hok
    simp only [Except.ok.injEq, Prod.mk.injEq] at hok
    obtain ⟨h1, h2, h3⟩ := hok
    subst h1
    subst h2
    subst h3
    have hbe : batch = [] := List.length_eq_zero.mp hb
    subst hbe
    refine ⟨by simp [rawIdxs], by simp, by simp, ?_⟩
    intro _
    simp [List.take_append_drop]
  · rw [if_neg hb] at hok
    cases hsc : scanBatch c.instanceAllRecords (clampIdx idx c.length) batch 0 c.nextId with
    | error s =>
      rw [hsc] at hok
      cases hok
    | ok t =>
      obtain ⟨batch', idxs', nid⟩ := t
      rw [hsc] at hok
      simp only [Except.ok.injEq, Prod.mk.injEq] at hok
      obtain ⟨h1, h2, h3⟩ := hok
      subst h1
      subst h2
      subst h3
      have hidx := scanBatch_idxs c.instanceAllRecords (clampIdx idx c.length)
        batch 0 c.nextId batch' idxs' nid hsc
      set recs := c.records.take (clampIdx idx c.length) ++ batch' ++
          c.records.drop (clampIdx idx c.length) with hrecs
      refine ⟨hidx, ?_, ?_, ?_⟩
      · by_cases hchg : c.length ≠ recs.length
        · by_cases hi : idxs'.length = 0
          · have hie : idxs' = [] := List.length_eq_zero.mp hi
            simp [hchg, hie, emit, hs, List.countP_append, List.countP_cons, isAddE]
          · simp [hchg, hi, emit, hs, List.countP_append, List.countP_cons, isAddE]
        · by_cases hi : idxs'.length = 0
          · have hie : idxs' = [] := List.length_eq_zero.mp hi
            simp [hchg, hie, emit, hs, List.countP_append, List.countP_cons, isAddE]
          · simp [hchg, hi, emit, hs, List.countP_append, List.countP_cons, isAddE]
      · intro l2 hmem
        by_cases hchg : c.length ≠ recs.length
        · by_cases hi : idxs'.length = 0
          · have hie : idxs' = [] := List.length_eq_zero.mp hi
            simp [hchg, hie, emit, hs] at hmem
          · simp [hchg, hi, emit, hs] at hmem
            exact hmem
        · by_cases hi : idxs'.length = 0
          · have hie : idxs' = [] := List.length_eq_zero.mp hi
            simp [hchg, hie, emit, hs] at hmem
          · simp [hchg, hi, emit, hs] at hmem
            exact hmem
      · intro heag
        rw [heag] at hsc
        obtain ⟨hbb, _⟩ := scanBatch_lazy_batch (clampIdx idx c.length)
          batch 0 c.nextId batch' idxs' nid hsc
        simp only [hrecs, hbb]

/-- Claim C8 witness: adding the batch [B (an instance), J (a raw hash)] to
the unfiltered collection [A] reports only the raw hash's insertion index 2,
fires one `add` event with exactly [2], and splices both entries in. -/
theorem C8_add_event_indices_witness :
    ∃ (idxs : List Nat) (c' : Collection) (es : List Event),
      add cA1 [some eB, some rJ] none = .ok (idxs, c', es) ∧
      idxs = rawIdxs (clampIdx none cA1.length) [some eB, some rJ] 0 ∧
      idxs = [2] ∧
      es.countP isAddE = 1 ∧
      c'.records = [some eA, some eB, some rJ] := by
  have hadd : add cA1 [some eB, some rJ] none =
      .ok ([2], { cA1 with records := [some eA, some eB, some rJ], length := 3 },
        [Event.lengthChg 1 3, Event.addE [2]]) := by rfl
  have h := C8_add_event_indices cA1 [some eB, some rJ] none [2] _ _ rfl rfl hadd
  refine ⟨[2], _, _, hadd, h.1, rfl, ?_, rfl⟩
  simpa using h.2.1

/-! ### Claim C9 -/

/-- Whatever lands in an event list through a guarded `emit` is the emitted
event itself. -/
theorem mem_emit_ite (c : Collection) (P : Prop) [Decidable P] (e ev : Event)
    (h : ev ∈ (if P then emit c e else [])) : ev = e := by
  by_cases hp : P
  · rw [if_pos hp] at h
    unfold emit at h
    by_cases hs : c.silenced = true
    · rw [if_pos hs] at h
      cases h
    · rw [if_neg hs] at h
      simpa using h
  · rw [if_neg hp] at h
    cases h

/-- `remove` emits only length-change and remove notifications — never a
record `destroy` event. -/
theorem remove_events (c : Collection) (batch : List Slot) (hf : c.filtered = false) :
    ∀ ev ∈ (remove c batch).2.2, recDestroyedId ev = none := by
  intro ev hmem
  simp only [remove, hf, Bool.false_eq_true, if_false, List.nil_append] at hmem
  rw [List.mem_append] at hmem
  rcases hmem with hmem | hmem
  · rw [mem_emit_ite _ _ _ _ hmem]
    rfl
  · rw [mem_emit_ite _ _ _ _ hmem]
    rfl

/-- With duplicate-free identities, the record stored at position `k`
resolves by `indexOf` to exactly `k`. -/
theorem idxOf_self_nodup :
    ∀ (l : List Entry) (k : Nat) (e : Entry), (l.map Entry.id).Nodup →
      l[k]? = some e → idxOf e (l.map some) = some k := by
  intro l
  induction l with
  | nil =>
    intro k e _ h
    simp at h
  | cons a rest ih =>
    intro k e hnd h
    have hnd' : (rest.map Entry.id).Nodup := (List.nodup_cons.mp (by simpa using hnd)).2
    cases k with
    | zero =>
      simp at h
      subst h
      simp [idxOf]
    | succ k2 =>
      simp at h
      have hmem : e ∈ rest := List.getElem?_mem h
      have hid : a.id ≠ e.id := by
        have hnotin : a.id ∉ rest.map Entry.id := (List.nodup_cons.mp (by simpa using hnd)).1
        intro hcontra
        exact hnotin (hcontra ▸ List.mem_map_of_mem Entry.id hmem)
      have hbeq : (a.id == e.id) = false := by
        simp [hid]
      simp [idxOf, hbeq, ih k2 e hnd' h]

/-- Scanning a suffix of the collection against the collection itself finds
every record at its own position. -/
theorem foundPairs_self (l : List Entry) (hnd : (l.map Entry.id).Nodup) :
    ∀ (suf : List Entry) (k : Nat), l.drop k = suf →
      foundPairs (l.map some) (suf.map some) = List.enumFrom k suf := by
  intro suf
  induction suf with
  | nil =>
    intro k _
    simp [foundPairs]
  | cons e rest ih =>
    intro k hsuf
    have hk : l[k]? = some e := by
      have h0 := List.getElem?_drop l k 0
      rw [hsuf] at h0
      simpa using h0.symm
    have hio := idxOf_self_nodup l k e hnd hk
    have hrest : l.drop (k + 1) = rest := by
      rw [← List.tail_drop, hsuf]
      rfl
    rw [List.map_cons, foundPairs, hio, List.enumFrom_cons, ih (k + 1) hrest]

/-- `removeAll` on a duplicate-free, fully-truthy collection removes every
slot: the returned map enumerates all records with their indices and the
records array becomes empty. -/
theorem removeAll_all (c : Collection) (l : List Entry)
    (hrec : c.records = l.map some) (hnd : (l.map Entry.id).Nodup)
    (hf : c.filtered = false) (hlen : c.length = c.records.length) :
    (removeAll c).1 = List.enumFrom 0 l ∧
    (removeAll c).2.1.records = [] ∧
    (removeAll c).2.1.length = 0 := by
  have hfp : foundPairs c.records c.records = List.enumFrom 0 l := by
    rw [hrec]
    exact foundPairs_self l hnd l 0 (by simp)
  have hkeys : (foundPairs c.records c.records).map Prod.fst = List.range' 0 l.length := by
    rw [hfp, List.enumFrom_map_fst]
  have hasc : List.Chain' (· < ·) ((foundPairs c.records c.records).map Prod.fst) := by
    rw [hkeys, List.chain'_iff_pairwise]
    exact List.pairwise_lt_range' 0 l.length
  have hpass := rmPass1_asc c.records c.records [] 0
    (by simp) (by simpa using hasc) (by intro i _; exact Nat.zero_le i)
  simp only [List.map_nil, List.nil_append] at hpass
  have hpw : List.Pairwise (· < ·) ((foundPairs c.records c.records).map Prod.fst) := by
    rw [← List.chain'_iff_pairwise]
    exact hasc
  have hrev : List.Pairwise (· > ·)
      (((foundPairs c.records c.records).map Prod.fst).reverse) := by
    rw [List.pairwise_reverse]
    exact hpw
  have hbnd : ∀ i ∈ (((foundPairs c.records c.records).map Prod.fst).reverse),
      i < c.records.length := by
    intro i hi
    rw [List.mem_reverse, hkeys, List.mem_range'_1] at hi
    rw [hrec]
    simpa using hi.2
  have herase := eraseList_length (((foundPairs c.records c.records).map Prod.fst).reverse)
    c.records hrev hbnd
  have hkeyslen : (((foundPairs c.records c.records).map Prod.fst).reverse).length
      = l.length := by
    rw [List.length_reverse, List.length_map, hfp]
    simp
  have hreclen : c.records.length = l.length := by
    rw [hrec]
    simp
  have hzero : (eraseList c.records
      (((foundPairs c.records c.records).map Prod.fst).reverse)).length = 0 := by
    omega
  have hnil := List.length_eq_zero.mp hzero
  refine ⟨?_, ?_, ?_⟩
  · simp [removeAll, remove, hf, hpass, hfp]
  · simp [removeAll, remove, hf, hpass, hnil]
  · simp [removeAll, remove, hf, hpass, hzero]

/-- `insertSorted` prepends when the new key is a lower bound. -/
theorem insertSorted_le (p : Nat × Entry) :
    ∀ d : List (Nat × Entry), (∀ q ∈ d, p.1 ≤ q.1) → insertSorted p d = p :: d := by
  intro d
  cases d with
  | nil => intro _; rfl
  | cons q rest =>
    intro h
    rw [insertSorted, if_pos (h q (by simp))]

/-- Enumerating a hash whose keys already come in strictly ascending order
visits the entries in their stored order. -/
theorem sortByKey_sorted :
    ∀ d : List (Nat × Entry), List.Pairwise (fun a b => a.1 < b.1) d → sortByKey d = d := by
  intro d
  induction d with
  | nil => intro _; rfl
  | cons p rest ih =>
    intro h
    simp only [sortByKey, List.foldr_cons]
    rw [show List.foldr insertSorted [] rest = sortByKey rest from rfl]
    rw [ih (List.pairwise_cons.mp h).2]
    exact insertSorted_le p rest (fun q hq => Nat.le_of_lt ((List.pairwise_cons.mp h).1 q hq))

/-- Destroying a hash of materialized records under the bulk-destroy flag
emits one `destroy` event per record and mutates nothing else. -/
theorem destroyEach_recs (c : Collection) (hflag : c.destroyAllFlag = true) :
    ∀ d : List (Nat × Entry), (∀ p ∈ d, p.2.isRec = true) →
      destroyEach c d = .ok (c, d.map (fun p => Event.recDestroyed p.2.id)) := by
  intro d
  induction d with
  | nil => intro _; rfl
  | cons p rest ih =>
    intro h
    have hdr : destroyRecord c p.2 = (c, [Event.recDestroyed p.2.id]) := by
      unfold destroyRecord
      rw [hflag]
      simp
    simp [destroyEach, h p (by simp), hdr, ih (fun q hq => h q (by simp [hq]))]

/-- Claim C9: `fetch` performs its pre-flight clearing synchronously in the
caller's turn — the scheduled request is still pending in the returned task
list while the clearing has already been applied.  With `replace` set (and
`destroy` not), every record is removed and none destroyed; with `destroy`
set, every record is removed and destroyed; with neither, the sequence is
untouched. -/
theorem C9_fetch_preflight (c : Collection) (o : FetchOpts) (l : List Entry)
    (hrec : c.records = l.map some) (hnd : (l.map Entry.id).Nodup)
    (hf : c.filtered = false) (hlen : c.length = c.records.length)
    (hrecs : ∀ e ∈ l, e.isRec = true) :
    (o.replace = true → o.destroy = false →
      ∃ c' es, fetch c o = .ok (c', es,
          [Sched.fetchRecord (o.strategy.getD Strategy.addS)]) ∧
        c'.records = [] ∧ es.countP isRecDestroyed = 0) ∧
    (o.destroy = true →
      ∃ c' es, fetch c o = .ok (c', es,
          [Sched.fetchRecord (o.strategy.getD Strategy.addS)]) ∧
        c'.records = [] ∧ es.filterMap recDestroyedId = l.map Entry.id) ∧
    (o.replace = false → o.destroy = false →
      fetch c o = .ok (c, [], [Sched.fetchRecord (o.strategy.getD Strategy.addS)])) := by
  have hall := removeAll_all c l hrec hnd hf hlen
  refine ⟨?_, ?_, ?_⟩
  · intro ho1 ho2
    have hcond : (o.replace && !o.destroy) = true := by
      rw [ho1, ho2]
      rfl
    refine ⟨(removeAll c).2.1, [] ++ (removeAll c).2.2, ?_, hall.2.1, ?_⟩
    · simp [fetch, hf, hcond]
    · rw [List.countP_eq_zero]
      intro ev hmem
      rw [List.nil_append] at hmem
      have hid := remove_events c c.records hf ev hmem
      cases ev <;> simp [isRecDestroyed] <;> simp [recDestroyedId] at hid
  · intro ho2
    have hcond : (o.replace && !o.destroy) = false := by
      rw [ho2]
      simp
    have hd := hall.1
    have hsorted : sortByKey (removeAll c).1 = (removeAll c).1 := by
      rw [hd]
      apply sortByKey_sorted
      have hpw := List.pairwise_lt_range' 0 l.length
      rw [← List.enumFrom_map_fst] at hpw
      exact (List.pairwise_map).mp hpw
    have hrecs2 : ∀ p ∈ sortByKey (removeAll c).1, p.2.isRec = true := by
      rw [hsorted, hd]
      intro p hp
      have hmem : p.2 ∈ l := by
        have hm := List.mem_map_of_mem Prod.snd hp
        rwa [List.enumFrom_map_snd] at hm
      exact hrecs _ hmem
    have hde := destroyEach_recs { (removeAll c).2.1 with destroyAllFlag := true } rfl
      (sortByKey (removeAll c).1) hrecs2
    have hda : destroyAll c = .ok ((removeAll c).1,
        { (removeAll c).2.1 with destroyAllFlag := false },
        (removeAll c).2.2 ++
          (sortByKey (removeAll c).1).map (fun p => Event.recDestroyed p.2.id)) := by
      simp [destroyAll, hde]
    refine ⟨{ (removeAll c).2.1 with destroyAllFlag := false },
      [] ++ ((removeAll c).2.2 ++
        (sortByKey (removeAll c).1).map (fun p => Event.recDestroyed p.2.id)),
      ?_, ?_, ?_⟩
    · simp [fetch, hf, hcond, ho2, hda]
    · exact hall.2.1
    · rw [List.nil_append, List.filterMap_append]
      have h1 : (removeAll c).2.2.filterMap recDestroyedId = [] := by
        rw [List.filterMap_eq_nil_iff]
        intro ev hmem
        exact remove_events c c.records hf ev hmem
      rw [h1, List.nil_append, hsorted, hd, List.filterMap_map]
      rw [show (recDestroyedId ∘ fun p : Nat × Entry => Event.recDestroyed p.2.id) =
        (some ∘ fun p : Nat × Entry => p.2.id) from rfl]
      rw [List.filterMap_eq_map]
      rw [show (fun p : Nat × Entry => p.2.id) = (Entry.id ∘ Prod.snd) from rfl]
      rw [← List.map_map, List.enumFrom_map_snd]
  · intro ho1 ho2
    simp [fetch, hf, ho1, ho2]

/-- Claim C9 witness: on [A, B], `fetchAndReplace` clears without destroying,
`fetchAndDestroy` clears and destroys records 10 and 11, and a plain fetch
leaves the sequence alone — in every case the request is still pending. -/
theorem C9_fetch_preflight_witness :
    (∃ c' es, fetch cAB { replace := true, destroy := false, strategy := none } =
        .ok (c', es, [Sched.fetchRecord Strategy.addS]) ∧
      c'.records = [] ∧ es.countP isRecDestroyed = 0) ∧
    (∃ c' es, fetch cAB { replace := false, destroy := true, strategy := none } =
        .ok (c', es, [Sched.fetchRecord Strategy.addS]) ∧
      c'.records = [] ∧ es.filterMap recDestroyedId = [10, 11]) ∧
    fetch cAB { replace := false, destroy := false, strategy := none } =
      .ok (cAB, [], [Sched.fetchRecord Strategy.addS]) := by
  have h1 := C9_fetch_preflight cAB { replace := true, destroy := false, strategy := none }
    [eA, eB] rfl (by decide) rfl rfl (by decide)
  have h2 := C9_fetch_preflight cAB { replace := false, destroy := true, strategy := none }
    [eA, eB] rfl (by decide) rfl rfl (by decide)
  have h3 := C9_fetch_preflight cAB { replace := false, destroy := false, strategy := none }
    [eA, eB] rfl (by decide) rfl rfl (by decide)
  refine ⟨h1.1 rfl rfl, ?_, h3.2.2 rfl rfl⟩
  obtain ⟨c', es, heq, hrec2, hfm⟩ := h2.2.1 rfl
  exact ⟨c', es, heq, hrec2, hfm⟩

/-! ### Claim C10 -/

/-- A `takeWhile` prefix never exceeds the list. -/
theorem takeWhile_len_le {α : Type} (p : α → Bool) :
    ∀ l : List α, (l.takeWhile p).length ≤ l.length := by
  intro l
  induction l with
  | nil => simp
  | cons a rest ih =>
    rw [List.takeWhile_cons]
    by_cases hp : p a = true
    · simp only [hp, if_true, List.length_cons]
      omega
    · simp [hp]

/-- A false bit bounds the true-prefix of a mask. -/
theorem takeWhile_len_le_of_false :
    ∀ (m : List Bool) (j : Nat), m[j]? = some false →
      (m.takeWhile id).length ≤ j := by
  intro m
  induction m with
  | nil =>
    intro j h
    simp at h
  | cons b rest ih =>
    intro j h
    cases j with
    | zero =>
      simp at h
      subst h
      simp [List.takeWhile_cons]
    | succ j2 =>
      simp at h
      rw [List.takeWhile_cons]
      cases b with
      | false => simp
      | true =>
        simp only [id, if_true, List.length_cons]
        have := ih j2 h
        omega

/-- A slot with an existing `i`-th entry keeps its list unchanged when that
entry is written back. -/
theorem set_same {α : Type} (l : List α) (i : Nat) (a : α) (h : l[i]? = some a) :
    l.set i a = l := by
  apply List.ext_getElem?
  intro j
  rw [List.getElem?_set]
  by_cases hij : i = j
  · subst hij
    obtain ⟨hlt, hval⟩ := List.getElem?_eq_some.mp h
    simp [hlt, h]
  · simp [hij]

/-- One step of the lazy resolver: `at i` either hits an absent/falsy slot —
the truthy prefix of the mask from `i` on is empty and the state is unchanged
— or returns a record, preserving the someness mask, with the truthy prefix
continuing past `i`. -/
theorem atIdx_cases (c : Collection) (i : Nat) :
    ((atIdx c i).1 = none ∧ (atIdx c i).2 = c ∧
      ((c.records.map Option.isSome).drop i).takeWhile id = []) ∨
    (∃ r, (atIdx c i).1 = some r ∧
      (atIdx c i).2.records.map Option.isSome = c.records.map Option.isSome ∧
      ((c.records.map Option.isSome).drop i).takeWhile id =
        true :: ((c.records.map Option.isSome).drop (i + 1)).takeWhile id) := by
  have hmasklen : (c.records.map Option.isSome).length = c.records.length := by simp
  cases hslot : c.records[i]? with
  | none =>
    have hge : c.records.length ≤ i := List.getElem?_eq_none_iff.mp hslot
    have hdrop : (c.records.map Option.isSome).drop i = [] :=
      List.drop_eq_nil_of_le (by omega)
    refine Or.inl ⟨?_, ?_, by rw [hdrop]; rfl⟩ <;> simp [atIdx, hslot]
  | some s =>
    have hlt : i < c.records.length := by
      rcases List.getElem?_eq_some.mp hslot with ⟨h, _⟩
      exact h
    have hmaski : (c.records.map Option.isSome)[i]? = some s.isSome := by
      rw [List.getElem?_map, hslot]
      rfl
    have hdrop : (c.records.map Option.isSome).drop i =
        s.isSome :: (c.records.map Option.isSome).drop (i + 1) := by
      have hh := List.drop_eq_getElem_cons (l := c.records.map Option.isSome)
        (n := i) (by omega)
      rw [hh]
      congr 1
      rcases List.getElem?_eq_some.mp hmaski with ⟨h2, hval⟩
      exact hval
    cases s with
    | none =>
      refine Or.inl ⟨?_, ?_, ?_⟩
      · simp [atIdx, hslot]
      · simp [atIdx, hslot]
      · rw [hdrop]
        rfl
    | some e =>
      by_cases hr : e.isRec = true
      · refine Or.inr ⟨e, ?_, ?_, ?_⟩
        · simp [atIdx, hslot, hr]
        · simp [atIdx, hslot, hr]
        · rw [hdrop]
          rfl
      · refine Or.inr ⟨createRecordEntry c.nextId e.attrs, ?_, ?_, ?_⟩
        · simp [atIdx, hslot, hr]
        · simp only [atIdx, hslot, hr]
          simp only [Bool.false_eq_true, if_false]
          rw [List.map_set]
          exact set_same _ i _ (by rw [hmaski]; rfl)
        · rw [hdrop]
          rfl

/-- The `map` loop visits exactly `min fuel (truthy prefix from i)` slots. -/
theorem mapAux_len {α : Type} (f : Entry → Nat → α) :
    ∀ (fuel : Nat) (c : Collection) (i : Nat),
      (mapAux f fuel c i).1.length =
        min fuel (((c.records.map Option.isSome).drop i).takeWhile id).length := by
  intro fuel
  induction fuel with
  | zero =>
    intro c i
    simp [mapAux]
  | succ fu ih =>
    intro c i
    rcases hsplit : atIdx c i with ⟨o, c1⟩
    rcases atIdx_cases c i with ⟨h1, _, htw⟩ | ⟨r, h1, hmask, htw⟩
    · rw [hsplit] at h1
      simp only at h1
      subst h1
      simp only [mapAux, hsplit]
      simp [htw]
    · rw [hsplit] at h1 hmask
      simp only at h1 hmask
      subst h1
      simp only [mapAux, hsplit, List.length_cons]
      rw [ih c1 (i + 1), hmask, htw]
      simp [Nat.succ_min_succ]

/-- The `filter` loop never visits more than `min fuel (truthy prefix)`. -/
theorem filterAux_len_le (g : Entry → Nat → Bool) :
    ∀ (fuel : Nat) (c : Collection) (i : Nat),
      (filterAux g fuel c i).1.length ≤
        min fuel (((c.records.map Option.isSome).drop i).takeWhile id).length := by
  intro fuel
  induction fuel with
  | zero =>
    intro c i
    simp [filterAux]
  | succ fu ih =>
    intro c i
    rcases hsplit : atIdx c i with ⟨o, c1⟩
    rcases atIdx_cases c i with ⟨h1, _, htw⟩ | ⟨r, h1, hmask, htw⟩
    · rw [hsplit] at h1
      simp only at h1
      subst h1
      simp [filterAux, hsplit, htw]
    · rw [hsplit] at h1 hmask
      simp only at h1 hmask
      subst h1
      simp only [filterAux, hsplit, List.length_append]
      rw [htw]
      have hle := ih c1 (i + 1)
      rw [hmask] at hle
      by_cases hg : g r i = true
      · simp only [hg, if_true, List.length_cons, List.length_nil]
        rw [Nat.succ_min_succ]
        omega
      · simp only [hg, Bool.false_eq_true, if_false, List.length_nil,
          List.length_cons, List.nil_append]
        omega

/-- The `filter` loop with an always-true predicate visits the whole truthy
prefix. -/
theorem filterAux_len_true :
    ∀ (fuel : Nat) (c : Collection) (i : Nat),
      (filterAux (fun _ _ => true) fuel c i).1.length =
        min fuel (((c.records.map Option.isSome).drop i).takeWhile id).length := by
  intro fuel
  induction fuel with
  | zero =>
    intro c i
    simp [filterAux]
  | succ fu ih =>
    intro c i
    rcases hsplit : atIdx c i with ⟨o, c1⟩
    rcases atIdx_cases c i with ⟨h1, _, htw⟩ | ⟨r, h1, hmask, htw⟩
    · rw [hsplit] at h1
      simp only at h1
      subst h1
      simp [filterAux, hsplit, htw]
    · rw [hsplit] at h1 hmask
      simp only at h1
      subst h1
      simp only [filterAux, hsplit]
      rw [htw]
      have hih := ih c1 (i + 1)
      rw [hmask] at hih
      simp only [if_true, List.singleton_append, List.length_cons, hih]
      simp [Nat.succ_min_succ]

/-- Claim C10: `map` and `filter` iterate in index order via `at` up to the
cached `length` and stop at the first index whose slot resolves absent or
falsy: with an accurate cached length, `map` returns one element per slot of
the longest truthy prefix, `filter` never returns more, an always-true
`filter` returns exactly that many, and a falsy slot before index
`length - 1` makes every `map` result shorter than `length` even though
`length` still counts the skipped slots. -/
theorem C10_iteration_stops (c : Collection) (hlen : c.length = c.records.length) :
    (∀ (α : Type) (f : Entry → Nat → α),
      (mapRecs c f).1.length = ((c.records.map Option.isSome).takeWhile id).length) ∧
    (∀ (g : Entry → Nat → Bool),
      (filterRecs c g).1.length ≤ ((c.records.map Option.isSome).takeWhile id).length) ∧
    ((filterRecs c (fun _ _ => true)).1.length =
      ((c.records.map Option.isSome).takeWhile id).length) ∧
    (∀ j, j + 1 < c.length → c.records[j]? = some none →
      ∀ (α : Type) (f : Entry → Nat → α), (mapRecs c f).1.length < c.length) := by
  have hbound : ((c.records.map Option.isSome).takeWhile id).length ≤ c.length := by
    have h1 := takeWhile_len_le id (c.records.map Option.isSome)
    simp only [List.length_map] at h1
    omega
  have hmap : ∀ (α : Type) (f : Entry → Nat → α),
      (mapRecs c f).1.length = ((c.records.map Option.isSome).takeWhile id).length := by
    intro α f
    rw [mapRecs, mapAux_len, List.drop_zero]
    omega
  refine ⟨hmap, ?_, ?_, ?_⟩
  · intro g
    have hle := filterAux_len_le g c.length c 0
    rw [List.drop_zero] at hle
    rw [filterRecs]
    omega
  · rw [filterRecs, filterAux_len_true, List.drop_zero]
    omega
  · intro j hj hslot α f
    have hmaskj : (c.records.map Option.isSome)[j]? = some false := by
      rw [List.getElem?_map, hslot]
      rfl
    have hb := takeWhile_len_le_of_false (c.records.map Option.isSome) j hmaskj
    rw [hmap α f]
    omega

/-- Claim C10 witness: on [A, null, B] with length 3, `map` visits only index
0 and returns a single element, and an always-true `filter` does the same —
both shorter than `length`. -/
theorem C10_iteration_stops_witness :
    (mapRecs cGap (fun e _ => e.id)).1.length = 1 ∧
    (mapRecs cGap (fun e _ => e.id)).1.length < cGap.length ∧
    (filterRecs cGap (fun _ _ => true)).1.length = 1 ∧
    cGap.length = 3 := by
  have h := C10_iteration_stops cGap rfl
  have h1 := h.1 Nat (fun e _ => e.id)
  have h2 := h.2.2.1
  have h3 := h.2.2.2 1 (by decide) (by decide) Nat (fun e _ => e.id)
  refine ⟨?_, h3, ?_, rfl⟩
  · rw [h1]
    decide
  · rw [h2]
    decide

end Enyo
